import Mathlib

/-!
Verification of the cubical-complex construction (`CubeMap`) and the
Euler-characteristic computation (`EulerCharacteristic_seq`) of
`src/ViteBetti.py` (tools21cm).

The Python functions are embedded shallowly:

* a numpy array is an `NDArr`: a shape (list of extents) together with a
  total valuation of index lists by rationals (numpy numeric entries);
* the mutable `cubemap` array is a total function `Cell → ℚ` updated by
  explicit functional writes, and each of the four passes of `CubeMap`
  is a `List.foldl` of its loop body over the lexicographic scan order
  `scanIdx` of the nested `for` loops;
* Python's tuple unpacking `nx, ny, nz = arr.shape` fails on arrays whose
  rank is not 3, and `np.zeros` fails on the negative extent `2*0-1`
  produced by a zero-length axis; both failures are modelled by
  `Except.error` with a `ShapeError` value;
* Python truthiness of a numeric array entry (`if arr[i,j,k]:`) is `≠ 0`,
  and `(i-1) % N` / `(i+1) % N` on in-range indices are `nbm` / `nbp`.
-/

namespace ViteBetti

/-- An index triple `(i, j, k)` into a rank-3 array. -/
abbrev Cell : Type := ℕ × ℕ × ℕ

/-- The state of the mutable `cubemap` array: a total valuation of cells.
`np.zeros` initialises every cell to `0`; out-of-range cells are never
read nor written by the algorithm. -/
abbrev CMap : Type := Cell → ℚ

/-- A numpy array: its shape together with the stored entries, addressed
by index lists (only indices within the shape are ever dereferenced). -/
structure NDArr where
  shape : List ℕ
  val : List ℕ → ℚ

/-- Failure modes of the two functions on malformed shapes:
`rankMismatch r` models the `ValueError` of the tuple unpacking
`nx, ny, nz = arr.shape` on an array of rank `r ≠ 3`, and
`negativeDimension` models the `ValueError` of `np.zeros` on the negative
extent `2*0-1` coming from a zero-length axis. -/
inductive ShapeError where
  | rankMismatch (rank : ℕ) : ShapeError
  | negativeDimension : ShapeError
deriving DecidableEq

/-- Python's `(x+1) % N` on an index `x` of an axis of extent `N`. -/
def nbp (N x : ℕ) : ℕ := (x + 1) % N

/-- Python's `(x-1) % N` on an index `x < N` (Python's modulo of the
possibly negative `x-1` is nonnegative; for `0 ≤ x < N` it equals
`(x + N - 1) % N`). -/
def nbm (N x : ℕ) : ℕ := (x + N - 1) % N

/-- Functional write: `m[p] = v`. -/
def setCell (m : CMap) (p : Cell) (v : ℚ) : CMap :=
  fun q => if q = p then v else m q

/-- The cell `[(i-1)%Nx, j, k]` read by the passes. -/
def xm (Nx : ℕ) (c : Cell) : Cell := (nbm Nx c.1, c.2.1, c.2.2)

/-- The cell `[(i+1)%Nx, j, k]`. -/
def xp (Nx : ℕ) (c : Cell) : Cell := (nbp Nx c.1, c.2.1, c.2.2)

/-- The cell `[i, (j-1)%Ny, k]`. -/
def ym (Ny : ℕ) (c : Cell) : Cell := (c.1, nbm Ny c.2.1, c.2.2)

/-- The cell `[i, (j+1)%Ny, k]`. -/
def yp (Ny : ℕ) (c : Cell) : Cell := (c.1, nbp Ny c.2.1, c.2.2)

/-- The cell `[i, j, (k-1)%Nz]`. -/
def zm (Nz : ℕ) (c : Cell) : Cell := (c.1, c.2.1, nbm Nz c.2.2)

/-- The cell `[i, j, (k+1)%Nz]`. -/
def zp (Nz : ℕ) (c : Cell) : Cell := (c.1, c.2.1, nbp Nz c.2.2)

/-- The cells visited by `for i in xrange(Nx): for j in xrange(Ny):
for k in xrange(Nz)`, in loop order. -/
def scanIdx (Nx Ny Nz : ℕ) : List Cell :=
  (List.range Nx).flatMap fun i =>
    (List.range Ny).flatMap fun j =>
      (List.range Nz).map fun k => (i, j, k)

/-- Loop body of the `## Vertices` pass: `if arr[i,j,k]:
cubemap[i*2,j*2,k*2] = 1`. -/
def vertexStep (g : Cell → ℚ) (m : CMap) (c : Cell) : CMap :=
  if g c ≠ 0 then setCell m (2 * c.1, 2 * c.2.1, 2 * c.2.2) 1 else m

/-- Loop body of the `## Edges` pass (the `if/elif` cascade over the
three axes; each guard reads the current, partially updated `cubemap`). -/
def edgeStep (Nx Ny Nz : ℕ) (m : CMap) (c : Cell) : CMap :=
  if m c = 0 then
    if m (xm Nx c) ≠ 0 ∧ m (xp Nx c) ≠ 0 then
      setCell m c 1
    else if m (ym Ny c) ≠ 0 ∧ m (yp Ny c) ≠ 0 then
      setCell m c 1
    else if m (zm Nz c) ≠ 0 ∧ m (zp Nz c) ≠ 0 then
      setCell m c 1
    else m
  else m

/-- Loop body of the `## Faces` pass.  The second conjunct of the first
rule is written `cubemap[i,(j-1)%Ny,k]==1` in the source (an exact
comparison with `1` rather than a truthiness test); this is kept. -/
def faceStep (Nx Ny Nz : ℕ) (m : CMap) (c : Cell) : CMap :=
  if m c = 0 then
    if m (xm Nx c) ≠ 0 ∧ m (xp Nx c) ≠ 0 ∧ m (ym Ny c) = 1 ∧ m (yp Ny c) ≠ 0 then
      setCell m c 1
    else if m (ym Ny c) ≠ 0 ∧ m (yp Ny c) ≠ 0 ∧ m (zm Nz c) ≠ 0 ∧ m (zp Nz c) ≠ 0 then
      setCell m c 1
    else if m (zm Nz c) ≠ 0 ∧ m (zp Nz c) ≠ 0 ∧ m (xm Nx c) ≠ 0 ∧ m (xp Nx c) ≠ 0 then
      setCell m c 1
    else m
  else m

/-- Loop body of the `## Cubes` pass (three nested `if`s). -/
def cubeStep (Nx Ny Nz : ℕ) (m : CMap) (c : Cell) : CMap :=
  if m c = 0 then
    if m (xm Nx c) ≠ 0 ∧ m (xp Nx c) ≠ 0 then
      if m (ym Ny c) ≠ 0 ∧ m (yp Ny c) ≠ 0 then
        if m (zm Nz c) ≠ 0 ∧ m (zp Nz c) ≠ 0 then
          setCell m c 1
        else m
      else m
    else m
  else m

/-- The value returned by `CubeMap`: the allocated shape
`(2*nx-1, 2*ny-1, 2*nz-1)` of the `cubemap` array, and its entries. -/
structure CubeMapResult where
  Nx : ℕ
  Ny : ℕ
  Nz : ℕ
  map : CMap

/-- The four ordered passes of `CubeMap` on a rank-3 array of extents
`nx, ny, nz` with entries `g`. -/
def buildCubeMap (g : Cell → ℚ) (nx ny nz : ℕ) : CubeMapResult :=
  let Nx := 2 * nx - 1
  let Ny := 2 * ny - 1
  let Nz := 2 * nz - 1
  let m0 : CMap := fun _ => 0
  let m1 := (scanIdx nx ny nz).foldl (vertexStep g) m0
  let m2 := (scanIdx Nx Ny Nz).foldl (edgeStep Nx Ny Nz) m1
  let m3 := (scanIdx Nx Ny Nz).foldl (faceStep Nx Ny Nz) m2
  let m4 := (scanIdx Nx Ny Nz).foldl (cubeStep Nx Ny Nz) m3
  ⟨Nx, Ny, Nz, m4⟩

/-- `CubeMap`, dispatching on the shape of the input array:
rank ≠ 3 fails at the tuple unpacking, a zero-length axis fails at the
`np.zeros((2*nx-1, 2*ny-1, 2*nz-1))` allocation. -/
def CubeMapShape : List ℕ → (List ℕ → ℚ) → Except ShapeError CubeMapResult
  | [nx, ny, nz], v =>
    if nx = 0 ∨ ny = 0 ∨ nz = 0 then .error .negativeDimension
    else .ok (buildCubeMap (fun c => v [c.1, c.2.1, c.2.2]) nx ny nz)
  | s, _ => .error (.rankMismatch s.length)

/-- `CubeMap(arr)` of `src/ViteBetti.py`. -/
def CubeMap (arr : NDArr) : Except ShapeError CubeMapResult :=
  CubeMapShape arr.shape arr.val

/-- One loop body of `EulerCharacteristic_seq`: `if(A[x,y,z] == 1)` add
`+1` to `chi` when `(x+y+z) % 2 == 0` and `-1` otherwise. -/
def eulerStep (v : List ℕ → ℚ) (chi : ℤ) (c : Cell) : ℤ :=
  if v [c.1, c.2.1, c.2.2] = 1 then
    if (c.1 + c.2.1 + c.2.2) % 2 = 0 then chi + 1 else chi - 1
  else chi

/-- `EulerCharacteristic_seq`, dispatching on the shape (rank ≠ 3 fails
at the tuple unpacking; note the loops of a rank-3 array with a
zero-length axis simply run zero times). -/
def EulerShape : List ℕ → (List ℕ → ℚ) → Except ShapeError ℤ
  | [nx, ny, nz], v => .ok ((scanIdx nx ny nz).foldl (eulerStep v) 0)
  | s, _ => .error (.rankMismatch s.length)

/-- `EulerCharacteristic_seq(A)` of `src/ViteBetti.py`. -/
def EulerCharacteristic_seq (A : NDArr) : Except ShapeError ℤ :=
  EulerShape A.shape A.val

/-- The `cubemap` array returned by `CubeMap`, viewed again as a numpy
array (as when it is fed to `EulerCharacteristic_seq`). -/
def CubeMapResult.toNDArr (r : CubeMapResult) : NDArr where
  shape := [r.Nx, r.Ny, r.Nz]
  val := fun l =>
    match l with
    | [i, j, k] => r.map (i, j, k)
    | _ => 0

/-!
The "Jacobi" variant of the construction: each pass reads only a
snapshot `snap` of the array taken at the start of that pass and writes
into a separate output buffer, instead of reading the partially updated
in-place array.  The spec asserts this variant produces the same output
as the in-place ("Gauss-Seidel") reference.
-/

/-- Edge-pass body of the snapshot variant: guards read `snap`. -/
def edgeStepJ (Nx Ny Nz : ℕ) (snap : CMap) (m : CMap) (c : Cell) : CMap :=
  if snap c = 0 then
    if snap (xm Nx c) ≠ 0 ∧ snap (xp Nx c) ≠ 0 then
      setCell m c 1
    else if snap (ym Ny c) ≠ 0 ∧ snap (yp Ny c) ≠ 0 then
      setCell m c 1
    else if snap (zm Nz c) ≠ 0 ∧ snap (zp Nz c) ≠ 0 then
      setCell m c 1
    else m
  else m

/-- Face-pass body of the snapshot variant. -/
def faceStepJ (Nx Ny Nz : ℕ) (snap : CMap) (m : CMap) (c : Cell) : CMap :=
  if snap c = 0 then
    if snap (xm Nx c) ≠ 0 ∧ snap (xp Nx c) ≠ 0 ∧ snap (ym Ny c) = 1 ∧ snap (yp Ny c) ≠ 0 then
      setCell m c 1
    else if snap (ym Ny c) ≠ 0 ∧ snap (yp Ny c) ≠ 0 ∧ snap (zm Nz c) ≠ 0 ∧ snap (zp Nz c) ≠ 0 then
      setCell m c 1
    else if snap (zm Nz c) ≠ 0 ∧ snap (zp Nz c) ≠ 0 ∧ snap (xm Nx c) ≠ 0 ∧ snap (xp Nx c) ≠ 0 then
      setCell m c 1
    else m
  else m

/-- Cube-pass body of the snapshot variant. -/
def cubeStepJ (Nx Ny Nz : ℕ) (snap : CMap) (m : CMap) (c : Cell) : CMap :=
  if snap c = 0 then
    if snap (xm Nx c) ≠ 0 ∧ snap (xp Nx c) ≠ 0 then
      if snap (ym Ny c) ≠ 0 ∧ snap (yp Ny c) ≠ 0 then
        if snap (zm Nz c) ≠ 0 ∧ snap (zp Nz c) ≠ 0 then
          setCell m c 1
        else m
      else m
    else m
  else m

/-- The four passes, each reading only the state produced by the
previous pass. -/
def buildCubeMapJacobi (g : Cell → ℚ) (nx ny nz : ℕ) : CubeMapResult :=
  let Nx := 2 * nx - 1
  let Ny := 2 * ny - 1
  let Nz := 2 * nz - 1
  let m0 : CMap := fun _ => 0
  let m1 := (scanIdx nx ny nz).foldl (vertexStep g) m0
  let m2 := (scanIdx Nx Ny Nz).foldl (edgeStepJ Nx Ny Nz m1) m1
  let m3 := (scanIdx Nx Ny Nz).foldl (faceStepJ Nx Ny Nz m2) m2
  let m4 := (scanIdx Nx Ny Nz).foldl (cubeStepJ Nx Ny Nz m3) m3
  ⟨Nx, Ny, Nz, m4⟩

/-- The snapshot variant of `CubeMap`. -/
def CubeMapShapeJacobi : List ℕ → (List ℕ → ℚ) → Except ShapeError CubeMapResult
  | [nx, ny, nz], v =>
    if nx = 0 ∨ ny = 0 ∨ nz = 0 then .error .negativeDimension
    else .ok (buildCubeMapJacobi (fun c => v [c.1, c.2.1, c.2.2]) nx ny nz)
  | s, _ => .error (.rankMismatch s.length)

/-- The snapshot ("Jacobi") variant of `CubeMap`, identical except that
every pass reads the pass-start snapshot. -/
def CubeMapJacobi (arr : NDArr) : Except ShapeError CubeMapResult :=
  CubeMapShapeJacobi arr.shape arr.val

/-!  ### The scan order and in-range cells  -/

/-- Lexicographic order of the nested loops: `a` is visited strictly
before `b`. -/
def lexLt (a b : Cell) : Prop :=
  a.1 < b.1 ∨ (a.1 = b.1 ∧ (a.2.1 < b.2.1 ∨ (a.2.1 = b.2.1 ∧ a.2.2 < b.2.2)))

instance (a b : Cell) : Decidable (lexLt a b) := by
  unfold lexLt; infer_instance

/-- The cell lies in the allocated `(Nx, Ny, Nz)` box. -/
def inR (Nx Ny Nz : ℕ) (c : Cell) : Prop :=
  c.1 < Nx ∧ c.2.1 < Ny ∧ c.2.2 < Nz

instance (Nx Ny Nz : ℕ) (c : Cell) : Decidable (inR Nx Ny Nz c) := by
  unfold inR; infer_instance

theorem lexLt_irrefl (a : Cell) : ¬ lexLt a a := by
  unfold lexLt; omega

theorem lexLt_asymm {a b : Cell} (h : lexLt a b) : ¬ lexLt b a := by
  unfold lexLt at *; omega

theorem not_lexLt_xp (a b c : ℕ) : ¬ lexLt (a + 1, b, c) (a, b, c) := by
  simp [lexLt]

theorem not_lexLt_yp (a b c : ℕ) : ¬ lexLt (a, b + 1, c) (a, b, c) := by
  simp [lexLt]

theorem not_lexLt_zp (a b c : ℕ) : ¬ lexLt (a, b, c + 1) (a, b, c) := by
  simp [lexLt]

theorem mem_scanIdx {Nx Ny Nz : ℕ} {c : Cell} :
    c ∈ scanIdx Nx Ny Nz ↔ inR Nx Ny Nz c := by
  unfold scanIdx inR
  simp only [List.mem_flatMap, List.mem_map, List.mem_range]
  constructor
  · rintro ⟨i, hi, j, hj, k, hk, rfl⟩
    exact ⟨hi, hj, hk⟩
  · rintro ⟨h1, h2, h3⟩
    exact ⟨c.1, h1, c.2.1, h2, c.2.2, h3, rfl⟩

theorem pairwise_flatMap_of {α β : Type} {R : α → α → Prop} {S : β → β → Prop}
    {L : List α} {f : α → List β}
    (hL : L.Pairwise R) (hf : ∀ a ∈ L, (f a).Pairwise S)
    (hRS : ∀ a b, R a b → ∀ x ∈ f a, ∀ y ∈ f b, S x y) :
    (L.flatMap f).Pairwise S := by
  induction L with
  | nil => simp
  | cons a L ih =>
    rw [List.flatMap_cons, List.pairwise_append]
    rcases List.pairwise_cons.mp hL with ⟨ha, hL'⟩
    refine ⟨hf a (List.mem_cons_self a L), ih hL' (fun b hb => hf b (List.mem_cons_of_mem a hb)), ?_⟩
    intro x hx y hy
    rcases List.mem_flatMap.mp hy with ⟨b, hb, hyb⟩
    exact hRS a b (ha b hb) x hx y hyb

theorem pairwise_scanIdx (Nx Ny Nz : ℕ) : (scanIdx Nx Ny Nz).Pairwise lexLt := by
  unfold scanIdx
  refine pairwise_flatMap_of (List.pairwise_lt_range Nx) (fun i _ => ?_) ?_
  · refine pairwise_flatMap_of (List.pairwise_lt_range Ny) (fun j _ => ?_) ?_
    · rw [List.pairwise_map]
      refine (List.pairwise_lt_range Nz).imp ?_
      intro k k' hk
      unfold lexLt; simp; omega
    · intro j j' hj x hx y hy
      rcases List.mem_map.mp hx with ⟨k, _, rfl⟩
      rcases List.mem_map.mp hy with ⟨k', _, rfl⟩
      unfold lexLt; simp; omega
  · intro i i' hi x hx y hy
    rcases List.mem_flatMap.mp hx with ⟨j, _, hx'⟩
    rcases List.mem_map.mp hx' with ⟨k, _, rfl⟩
    rcases List.mem_flatMap.mp hy with ⟨j', _, hy'⟩
    rcases List.mem_map.mp hy' with ⟨k', _, rfl⟩
    unfold lexLt; simp; omega

/-!  ### Arithmetic of the wrapped neighbours  -/

theorem nbm_eq {N x : ℕ} (h : x < N) :
    nbm N x = if x = 0 then N - 1 else x - 1 := by
  unfold nbm
  by_cases h0 : x = 0
  · subst h0
    rw [if_pos rfl]
    have e : 0 + N - 1 = N - 1 := by omega
    rw [e, Nat.mod_eq_of_lt (by omega)]
  · rw [if_neg h0]
    have e : x + N - 1 = (x - 1) + N := by omega
    rw [e, Nat.add_mod_right, Nat.mod_eq_of_lt (by omega)]

theorem nbp_eq {N x : ℕ} (h : x < N) :
    nbp N x = if x = N - 1 then 0 else x + 1 := by
  unfold nbp
  by_cases hx : x = N - 1
  · rw [if_pos hx]
    have : x + 1 = N := by omega
    rw [this, Nat.mod_self]
  · rw [if_neg hx, Nat.mod_eq_of_lt (by omega)]

theorem nbm_lt {N x : ℕ} (h : x < N) : nbm N x < N := by
  rw [nbm_eq h]; split <;> omega

theorem nbp_lt {N x : ℕ} (h : x < N) : nbp N x < N := by
  rw [nbp_eq h]; split <;> omega

/-- On an axis of extent 1, both wrapped neighbours are the index itself. -/
theorem nb_self {N x : ℕ} (h : x < N) (h1 : N = 1) : nbm N x = x ∧ nbp N x = x := by
  subst h1
  have hx : x = 0 := by omega
  subst hx
  refine ⟨?_, ?_⟩ <;> simp [nbm, nbp]

/-- On an odd axis of extent `> 1`, if both wrapped neighbours of `x` are
even then `x` is odd and interior, and the neighbours are the literal
`x - 1` and `x + 1`. -/
theorem both_even {N x : ℕ} (hN : N % 2 = 1) (h1 : 1 < N) (h : x < N)
    (hm : nbm N x % 2 = 0) (hp : nbp N x % 2 = 0) :
    x % 2 = 1 ∧ nbm N x = x - 1 ∧ nbp N x = x + 1 ∧ 1 ≤ x ∧ x + 1 < N := by
  rw [nbm_eq h] at hm ⊢
  rw [nbp_eq h] at hp ⊢
  by_cases h0 : x = 0
  · subst h0
    rw [if_neg (by omega)] at hp
    omega
  · rw [if_neg h0] at hm ⊢
    by_cases hl : x = N - 1
    · rw [if_pos hl] at hp
      omega
    · rw [if_neg hl] at hp ⊢
      omega

/-!  ### Generic characterisation of one in-place pass

An in-place pass walks the scan order and promotes cell `p` to `1` when
a `fire` condition on the current, partially updated state holds at `p`.
If the cells that actually fire are described by a (boolean) predicate
`F`, and firing at `p` on the state "`m₀` overlaid with the
already-fired cells before `p`" is equivalent to `F p`, then the whole
pass is the overlay of `F` on `m₀`.  -/

/-- Overlay: the cells selected by `C` are forced to `1`, the rest keep
their `m₀` value. -/
def ovl (C : Cell → Bool) (m₀ : CMap) : CMap :=
  fun q => if C q then 1 else m₀ q

theorem ovl_pos {C : Cell → Bool} {m₀ : CMap} {q : Cell} (h : C q = true) :
    ovl C m₀ q = 1 := by
  unfold ovl
  rw [h]
  simp

theorem ovl_neg {C : Cell → Bool} {m₀ : CMap} {q : Cell} (h : C q = false) :
    ovl C m₀ q = m₀ q := by
  unfold ovl
  rw [h]
  simp

theorem foldl_pass_aux
    (fire : CMap → Cell → Prop) [∀ m c, Decidable (fire m c)]
    (step : CMap → Cell → CMap)
    (hstep : ∀ m c, step m c = if fire m c then setCell m c 1 else m)
    (F : Cell → Bool) (Nx Ny Nz : ℕ) (m₀ : CMap)
    (hmain : ∀ p, inR Nx Ny Nz p →
      (fire (ovl (fun q => decide (lexLt q p) && F q) m₀) p ↔ F p = true)) :
    ∀ (L : List Cell) (P : Cell → Bool),
      L.Pairwise lexLt →
      (∀ p ∈ L, inR Nx Ny Nz p) →
      (∀ q p, P q = true → p ∈ L → lexLt q p) →
      (∀ q, F q = true → P q = true ∨ q ∈ L) →
      L.foldl step (ovl (fun q => P q && F q) m₀)
        = ovl (fun q => (P q || decide (q ∈ L)) && F q) m₀ := by
  intro L
  induction L with
  | nil =>
    intro P _ _ _ _
    refine congrArg (fun C => ovl C m₀) (funext fun q => ?_)
    simp
  | cons p L ih =>
    intro P hpw hin hbelow hcov
    rcases List.pairwise_cons.mp hpw with ⟨hhead, htail⟩
    have hCeq : (fun q => P q && F q) = (fun q => decide (lexLt q p) && F q) := by
      funext q
      cases hF : F q with
      | false => simp [hF]
      | true =>
        simp only [hF, Bool.and_true]
        cases hP : P q with
        | true =>
          exact (decide_eq_true (hbelow q p hP (List.mem_cons_self p L))).symm
        | false =>
          refine (decide_eq_false ?_).symm
          intro hlex
          rcases hcov q hF with hP' | hmem
          · rw [hP] at hP'
            exact Bool.false_ne_true hP'
          · rcases List.mem_cons.mp hmem with rfl | hmem'
            · exact lexLt_irrefl q hlex
            · exact lexLt_asymm (hhead q hmem') hlex
    have hfire : fire (ovl (fun q => P q && F q) m₀) p ↔ F p = true := by
      rw [hCeq]
      exact hmain p (hin p (List.mem_cons_self p L))
    rw [List.foldl_cons, hstep]
    by_cases hFp : F p = true
    · rw [if_pos (hfire.mpr hFp)]
      have hset : setCell (ovl (fun q => P q && F q) m₀) p 1
          = ovl (fun q => (P q || decide (q = p)) && F q) m₀ := by
        funext q
        show (if q = p then (1 : ℚ) else ovl (fun q => P q && F q) m₀ q)
          = ovl (fun q => (P q || decide (q = p)) && F q) m₀ q
        by_cases hq : q = p
        · subst hq
          rw [if_pos rfl, ovl_pos (by simp [hFp])]
        · rw [if_neg hq]
          unfold ovl
          simp [hq]
      rw [hset]
      refine Eq.trans (ih (fun q => P q || decide (q = p)) htail
        (fun p' hp' => hin p' (List.mem_cons_of_mem p hp'))
        (fun q p' hq hp' => by
          rcases Bool.or_eq_true_iff.mp hq with hq' | hq'
          · exact hbelow q p' hq' (List.mem_cons_of_mem p hp')
          · rw [of_decide_eq_true hq']
            exact hhead p' hp')
        (fun q hF => by
          rcases hcov q hF with h | h
          · exact Or.inl (by simp [h])
          · rcases List.mem_cons.mp h with rfl | h'
            · exact Or.inl (by simp)
            · exact Or.inr h')) ?_
      refine congrArg (fun C => ovl C m₀) (funext fun q => ?_)
      cases hF : F q with
      | false => simp
      | true =>
        simp only [Bool.and_true]
        by_cases hq : q = p <;> by_cases hm : q ∈ L <;>
          simp [hq, hm, List.mem_cons]
    · rw [if_neg (fun hf => hFp (hfire.mp hf))]
      refine Eq.trans (ih P htail (fun p' hp' => hin p' (List.mem_cons_of_mem p hp'))
        (fun q p' hq hp' => hbelow q p' hq (List.mem_cons_of_mem p hp'))
        (fun q hF => by
          rcases hcov q hF with h | h
          · exact Or.inl h
          · rcases List.mem_cons.mp h with rfl | h'
            · exact absurd hF hFp
            · exact Or.inr h')) ?_
      refine congrArg (fun C => ovl C m₀) (funext fun q => ?_)
      cases hF : F q with
      | false => simp
      | true =>
        simp only [Bool.and_true]
        have hqp : ¬ q = p := fun h => hFp (h ▸ hF)
        by_cases hm : q ∈ L <;> simp [hm, List.mem_cons, hqp]

theorem foldl_pass_char
    (fire : CMap → Cell → Prop) [∀ m c, Decidable (fire m c)]
    (step : CMap → Cell → CMap)
    (hstep : ∀ m c, step m c = if fire m c then setCell m c 1 else m)
    (F : Cell → Bool) (Nx Ny Nz : ℕ) (m₀ : CMap)
    (hFin : ∀ q, F q = true → inR Nx Ny Nz q)
    (hmain : ∀ p, inR Nx Ny Nz p →
      (fire (ovl (fun q => decide (lexLt q p) && F q) m₀) p ↔ F p = true)) :
    (scanIdx Nx Ny Nz).foldl step m₀ = ovl F m₀ := by
  have hinit : ovl (fun q => (fun _ : Cell => false) q && F q) m₀ = m₀ := by
    funext q
    unfold ovl
    simp
  have h := foldl_pass_aux fire step hstep F Nx Ny Nz m₀ hmain (scanIdx Nx Ny Nz)
    (fun _ => false) (pairwise_scanIdx Nx Ny Nz) (fun p hp => mem_scanIdx.mp hp)
    (fun q p hq _ => absurd hq (by simp))
    (fun q hF => Or.inr (mem_scanIdx.mpr (hFin q hF)))
  refine Eq.trans (Eq.trans
    (congrArg (fun m => List.foldl step m (scanIdx Nx Ny Nz)) hinit.symm) h) ?_
  refine congrArg (fun C => ovl C m₀) (funext fun q => ?_)
  cases hF : F q with
  | false => simp
  | true => simp [mem_scanIdx.mpr (hFin q hF)]

open Classical in
theorem foldl_vertexStep (g : Cell → ℚ) :
    ∀ (L : List Cell) (m : CMap) (q : Cell),
      L.foldl (vertexStep g) m q
        = if (∃ c, c ∈ L ∧ g c ≠ 0 ∧ q = (2 * c.1, 2 * c.2.1, 2 * c.2.2)) then 1 else m q := by
  intro L
  induction L with
  | nil =>
    intro m q
    rw [if_neg (by simp)]
    rfl
  | cons c L ih =>
    intro m q
    rw [List.foldl_cons, ih]
    by_cases hq : ∃ c', c' ∈ L ∧ g c' ≠ 0 ∧ q = (2 * c'.1, 2 * c'.2.1, 2 * c'.2.2)
    · rcases hq with ⟨c', hc', hg', he⟩
      rw [if_pos ⟨c', hc', hg', he⟩, if_pos ⟨c', List.mem_cons_of_mem c hc', hg', he⟩]
    · rw [if_neg hq]
      unfold vertexStep
      by_cases hg : g c ≠ 0
      · rw [if_pos hg]
        unfold setCell
        by_cases hqc : q = (2 * c.1, 2 * c.2.1, 2 * c.2.2)
        · rw [if_pos hqc, if_pos ⟨c, List.mem_cons_self c L, hg, hqc⟩]
        · rw [if_neg hqc, if_neg ?_]
          rintro ⟨c', hc', hg', he⟩
          rcases List.mem_cons.mp hc' with rfl | hmem
          · exact hqc he
          · exact hq ⟨c', hmem, hg', he⟩
      · rw [if_neg hg, if_neg ?_]
        rintro ⟨c', hc', hg', he⟩
        rcases List.mem_cons.mp hc' with rfl | hmem
        · exact hg hg'
        · exact hq ⟨c', hmem, hg', he⟩

/-!  ### Closed forms of the four passes

`m1Map … m4Map` are the claimed closed forms of the states after each
pass: each pass turns out to behave exactly like its "Jacobi" reading
(no in-pass propagation ever materialises), which is what the
development below proves.  -/

theorem cell_eta (p : Cell) : (p.1, p.2.1, p.2.2) = p := rfl

/-- A vertex of the complex: an all-even in-range cell whose voxel is
truthy. -/
def vCond (g : Cell → ℚ) (Nx Ny Nz : ℕ) (c : Cell) : Prop :=
  c.1 % 2 = 0 ∧ c.2.1 % 2 = 0 ∧ c.2.2 % 2 = 0 ∧ inR Nx Ny Nz c ∧
    g (c.1 / 2, c.2.1 / 2, c.2.2 / 2) ≠ 0

instance (g : Cell → ℚ) (Nx Ny Nz : ℕ) (c : Cell) : Decidable (vCond g Nx Ny Nz c) := by
  unfold vCond
  infer_instance

/-- Boolean form of `vCond`. -/
def vB (g : Cell → ℚ) (Nx Ny Nz : ℕ) (c : Cell) : Bool :=
  decide (vCond g Nx Ny Nz c)

/-- State after the vertex pass. -/
def m1Map (g : Cell → ℚ) (Nx Ny Nz : ℕ) : CMap :=
  ovl (vB g Nx Ny Nz) (fun _ => 0)

/-- The guard disjunction of the edge pass, on a given state. -/
def edgeCondAt (m : CMap) (Nx Ny Nz : ℕ) (c : Cell) : Prop :=
  (m (xm Nx c) ≠ 0 ∧ m (xp Nx c) ≠ 0) ∨
  (m (ym Ny c) ≠ 0 ∧ m (yp Ny c) ≠ 0) ∨
  (m (zm Nz c) ≠ 0 ∧ m (zp Nz c) ≠ 0)

instance (m : CMap) (Nx Ny Nz : ℕ) (c : Cell) : Decidable (edgeCondAt m Nx Ny Nz c) := by
  unfold edgeCondAt
  infer_instance

/-- The cells promoted by the edge pass (reading the vertex state). -/
def eFired (g : Cell → ℚ) (Nx Ny Nz : ℕ) (c : Cell) : Prop :=
  inR Nx Ny Nz c ∧ m1Map g Nx Ny Nz c = 0 ∧
    edgeCondAt (m1Map g Nx Ny Nz) Nx Ny Nz c

instance (g : Cell → ℚ) (Nx Ny Nz : ℕ) (c : Cell) : Decidable (eFired g Nx Ny Nz c) := by
  unfold eFired
  infer_instance

/-- Boolean form of `eFired`. -/
def eB (g : Cell → ℚ) (Nx Ny Nz : ℕ) (c : Cell) : Bool :=
  decide (eFired g Nx Ny Nz c)

/-- State after the edge pass. -/
def m2Map (g : Cell → ℚ) (Nx Ny Nz : ℕ) : CMap :=
  ovl (eB g Nx Ny Nz) (m1Map g Nx Ny Nz)

/-- The guard disjunction of the face pass (the comparison `== 1` of the
first rule is kept as in the source). -/
def faceCondAt (m : CMap) (Nx Ny Nz : ℕ) (c : Cell) : Prop :=
  (m (xm Nx c) ≠ 0 ∧ m (xp Nx c) ≠ 0 ∧ m (ym Ny c) = 1 ∧ m (yp Ny c) ≠ 0) ∨
  (m (ym Ny c) ≠ 0 ∧ m (yp Ny c) ≠ 0 ∧ m (zm Nz c) ≠ 0 ∧ m (zp Nz c) ≠ 0) ∨
  (m (zm Nz c) ≠ 0 ∧ m (zp Nz c) ≠ 0 ∧ m (xm Nx c) ≠ 0 ∧ m (xp Nx c) ≠ 0)

instance (m : CMap) (Nx Ny Nz : ℕ) (c : Cell) : Decidable (faceCondAt m Nx Ny Nz c) := by
  unfold faceCondAt
  infer_instance

/-- The cells promoted by the face pass (reading the edge state). -/
def fFired (g : Cell → ℚ) (Nx Ny Nz : ℕ) (c : Cell) : Prop :=
  inR Nx Ny Nz c ∧ m2Map g Nx Ny Nz c = 0 ∧
    faceCondAt (m2Map g Nx Ny Nz) Nx Ny Nz c

instance (g : Cell → ℚ) (Nx Ny Nz : ℕ) (c : Cell) : Decidable (fFired g Nx Ny Nz c) := by
  unfold fFired
  infer_instance

/-- Boolean form of `fFired`. -/
def fB (g : Cell → ℚ) (Nx Ny Nz : ℕ) (c : Cell) : Bool :=
  decide (fFired g Nx Ny Nz c)

/-- State after the face pass. -/
def m3Map (g : Cell → ℚ) (Nx Ny Nz : ℕ) : CMap :=
  ovl (fB g Nx Ny Nz) (m2Map g Nx Ny Nz)

/-- The guard conjunction of the cube pass. -/
def cubeCondAt (m : CMap) (Nx Ny Nz : ℕ) (c : Cell) : Prop :=
  (m (xm Nx c) ≠ 0 ∧ m (xp Nx c) ≠ 0) ∧
  (m (ym Ny c) ≠ 0 ∧ m (yp Ny c) ≠ 0) ∧
  (m (zm Nz c) ≠ 0 ∧ m (zp Nz c) ≠ 0)

instance (m : CMap) (Nx Ny Nz : ℕ) (c : Cell) : Decidable (cubeCondAt m Nx Ny Nz c) := by
  unfold cubeCondAt
  infer_instance

/-- The cells promoted by the cube pass (reading the face state). -/
def cFired (g : Cell → ℚ) (Nx Ny Nz : ℕ) (c : Cell) : Prop :=
  inR Nx Ny Nz c ∧ m3Map g Nx Ny Nz c = 0 ∧
    cubeCondAt (m3Map g Nx Ny Nz) Nx Ny Nz c

instance (g : Cell → ℚ) (Nx Ny Nz : ℕ) (c : Cell) : Decidable (cFired g Nx Ny Nz c) := by
  unfold cFired
  infer_instance

/-- Boolean form of `cFired`. -/
def cB (g : Cell → ℚ) (Nx Ny Nz : ℕ) (c : Cell) : Bool :=
  decide (cFired g Nx Ny Nz c)

/-- State after the cube pass: the final `cubemap`. -/
def m4Map (g : Cell → ℚ) (Nx Ny Nz : ℕ) : CMap :=
  ovl (cB g Nx Ny Nz) (m3Map g Nx Ny Nz)

theorem m1_ne {g : Cell → ℚ} {Nx Ny Nz : ℕ} {q : Cell} :
    m1Map g Nx Ny Nz q ≠ 0 ↔ vCond g Nx Ny Nz q := by
  unfold m1Map vB
  by_cases h : vCond g Nx Ny Nz q
  · rw [ovl_pos (decide_eq_true h)]
    simpa using h
  · rw [ovl_neg (decide_eq_false h)]
    simpa using h

theorem m1_01 (g : Cell → ℚ) (Nx Ny Nz : ℕ) (q : Cell) :
    m1Map g Nx Ny Nz q = 0 ∨ m1Map g Nx Ny Nz q = 1 := by
  unfold m1Map vB
  by_cases h : vCond g Nx Ny Nz q
  · exact Or.inr (ovl_pos (decide_eq_true h))
  · exact Or.inl (ovl_neg (decide_eq_false h))

theorem m2_ne {g : Cell → ℚ} {Nx Ny Nz : ℕ} {q : Cell} :
    m2Map g Nx Ny Nz q ≠ 0 ↔ vCond g Nx Ny Nz q ∨ eFired g Nx Ny Nz q := by
  unfold m2Map eB
  by_cases h : eFired g Nx Ny Nz q
  · rw [ovl_pos (decide_eq_true h)]
    constructor
    · intro _
      exact Or.inr h
    · intro _
      exact one_ne_zero
  · rw [ovl_neg (decide_eq_false h)]
    rw [m1_ne]
    constructor
    · exact Or.inl
    · rintro (hv | he)
      · exact hv
      · exact absurd he h

theorem m2_01 (g : Cell → ℚ) (Nx Ny Nz : ℕ) (q : Cell) :
    m2Map g Nx Ny Nz q = 0 ∨ m2Map g Nx Ny Nz q = 1 := by
  unfold m2Map eB
  by_cases h : eFired g Nx Ny Nz q
  · exact Or.inr (ovl_pos (decide_eq_true h))
  · rw [ovl_neg (decide_eq_false h)]
    exact m1_01 g Nx Ny Nz q

theorem m3_ne {g : Cell → ℚ} {Nx Ny Nz : ℕ} {q : Cell} :
    m3Map g Nx Ny Nz q ≠ 0 ↔
      vCond g Nx Ny Nz q ∨ eFired g Nx Ny Nz q ∨ fFired g Nx Ny Nz q := by
  unfold m3Map fB
  by_cases h : fFired g Nx Ny Nz q
  · rw [ovl_pos (decide_eq_true h)]
    constructor
    · intro _
      exact Or.inr (Or.inr h)
    · intro _
      exact one_ne_zero
  · rw [ovl_neg (decide_eq_false h)]
    rw [m2_ne]
    constructor
    · rintro (hv | he)
      · exact Or.inl hv
      · exact Or.inr (Or.inl he)
    · rintro (hv | he | hf)
      · exact Or.inl hv
      · exact Or.inr he
      · exact absurd hf h

theorem m3_01 (g : Cell → ℚ) (Nx Ny Nz : ℕ) (q : Cell) :
    m3Map g Nx Ny Nz q = 0 ∨ m3Map g Nx Ny Nz q = 1 := by
  unfold m3Map fB
  by_cases h : fFired g Nx Ny Nz q
  · exact Or.inr (ovl_pos (decide_eq_true h))
  · rw [ovl_neg (decide_eq_false h)]
    exact m2_01 g Nx Ny Nz q

theorem m4_ne {g : Cell → ℚ} {Nx Ny Nz : ℕ} {q : Cell} :
    m4Map g Nx Ny Nz q ≠ 0 ↔
      vCond g Nx Ny Nz q ∨ eFired g Nx Ny Nz q ∨ fFired g Nx Ny Nz q ∨
        cFired g Nx Ny Nz q := by
  unfold m4Map cB
  by_cases h : cFired g Nx Ny Nz q
  · rw [ovl_pos (decide_eq_true h)]
    constructor
    · intro _
      exact Or.inr (Or.inr (Or.inr h))
    · intro _
      exact one_ne_zero
  · rw [ovl_neg (decide_eq_false h)]
    rw [m3_ne]
    constructor
    · rintro (hv | he | hf)
      · exact Or.inl hv
      · exact Or.inr (Or.inl he)
      · exact Or.inr (Or.inr (Or.inl hf))
    · rintro (hv | he | hf | hc)
      · exact Or.inl hv
      · exact Or.inr (Or.inl he)
      · exact Or.inr (Or.inr hf)
      · exact absurd hc h

theorem m4_01 (g : Cell → ℚ) (Nx Ny Nz : ℕ) (q : Cell) :
    m4Map g Nx Ny Nz q = 0 ∨ m4Map g Nx Ny Nz q = 1 := by
  unfold m4Map cB
  by_cases h : cFired g Nx Ny Nz q
  · exact Or.inr (ovl_pos (decide_eq_true h))
  · rw [ovl_neg (decide_eq_false h)]
    exact m3_01 g Nx Ny Nz q

/-!  ### The support invariant

Every nonzero cell of every intermediate state has the property that an
odd coordinate along an axis forces both literal axis-neighbours to be
nonzero and the coordinate to be interior.  This is what makes each
pass behave like its snapshot reading: the wrap-around cases and the
in-pass propagation cases all contradict this invariant.  -/

/-- A state is `Good` when every nonzero cell with an odd coordinate
along some axis is interior on that axis and has both literal
axis-neighbours nonzero. -/
def Good (Nx Ny Nz : ℕ) (μ : CMap) : Prop :=
  ∀ s : Cell, μ s ≠ 0 →
    (s.1 % 2 = 1 →
      1 ≤ s.1 ∧ s.1 + 1 < Nx ∧
        μ (s.1 - 1, s.2.1, s.2.2) ≠ 0 ∧ μ (s.1 + 1, s.2.1, s.2.2) ≠ 0) ∧
    (s.2.1 % 2 = 1 →
      1 ≤ s.2.1 ∧ s.2.1 + 1 < Ny ∧
        μ (s.1, s.2.1 - 1, s.2.2) ≠ 0 ∧ μ (s.1, s.2.1 + 1, s.2.2) ≠ 0) ∧
    (s.2.2 % 2 = 1 →
      1 ≤ s.2.2 ∧ s.2.2 + 1 < Nz ∧
        μ (s.1, s.2.1, s.2.2 - 1) ≠ 0 ∧ μ (s.1, s.2.1, s.2.2 + 1) ≠ 0)

/-- In a `Good` state, a zero cell whose two wrapped x-neighbours are
both nonzero has an odd interior x-coordinate, so the wrapped
neighbours are the literal ones. -/
theorem pairX_odd {Nx Ny Nz : ℕ} {μ : CMap} (hNx : Nx % 2 = 1)
    (hG : Good Nx Ny Nz μ) {p : Cell} (hin : p.1 < Nx) (hp : μ p = 0)
    (hm : μ (xm Nx p) ≠ 0) (hpp : μ (xp Nx p) ≠ 0) :
    p.1 % 2 = 1 ∧ xm Nx p = (p.1 - 1, p.2.1, p.2.2) ∧
      xp Nx p = (p.1 + 1, p.2.1, p.2.2) ∧ 1 ≤ p.1 ∧ p.1 + 1 < Nx := by
  by_cases h1 : Nx = 1
  · exfalso
    have hs := nb_self hin h1
    have hxmp : xm Nx p = p := by
      unfold xm
      rw [hs.1]
    rw [hxmp, hp] at hm
    exact hm rfl
  · have h1' : 1 < Nx := by omega
    have hxm_even : nbm Nx p.1 % 2 = 0 := by
      by_contra hodd
      have hodd' : (xm Nx p).1 % 2 = 1 := by
        simp only [xm]
        omega
      obtain ⟨hA, hB, hC, hD⟩ := (hG (xm Nx p) hm).1 hodd'
      simp only [xm] at hA hB hC hD
      rw [nbm_eq hin] at hA hB hC hD
      by_cases h0 : p.1 = 0
      · rw [if_pos h0] at hB
        omega
      · rw [if_neg h0] at hD
        have he : p.1 - 1 + 1 = p.1 := by
          rw [if_neg h0] at hA
          omega
        rw [he, cell_eta] at hD
        exact hD hp
    have hxp_even : nbp Nx p.1 % 2 = 0 := by
      by_contra hodd
      have hodd' : (xp Nx p).1 % 2 = 1 := by
        simp only [xp]
        omega
      obtain ⟨hA, hB, hC, hD⟩ := (hG (xp Nx p) hpp).1 hodd'
      simp only [xp] at hA hB hC hD
      rw [nbp_eq hin] at hA hB hC hD
      by_cases h0 : p.1 = Nx - 1
      · rw [if_pos h0] at hA
        omega
      · rw [if_neg h0] at hC
        have he : p.1 + 1 - 1 = p.1 := by omega
        rw [he, cell_eta] at hC
        exact hC hp
    obtain ⟨ho, he1, he2, hb1, hb2⟩ := both_even hNx h1' hin hxm_even hxp_even
    refine ⟨ho, ?_, ?_, hb1, hb2⟩
    · unfold xm
      rw [he1]
    · unfold xp
      rw [he2]

/-- `pairX_odd` along the y-axis. -/
theorem pairY_odd {Nx Ny Nz : ℕ} {μ : CMap} (hNy : Ny % 2 = 1)
    (hG : Good Nx Ny Nz μ) {p : Cell} (hin : p.2.1 < Ny) (hp : μ p = 0)
    (hm : μ (ym Ny p) ≠ 0) (hpp : μ (yp Ny p) ≠ 0) :
    p.2.1 % 2 = 1 ∧ ym Ny p = (p.1, p.2.1 - 1, p.2.2) ∧
      yp Ny p = (p.1, p.2.1 + 1, p.2.2) ∧ 1 ≤ p.2.1 ∧ p.2.1 + 1 < Ny := by
  by_cases h1 : Ny = 1
  · exfalso
    have hs := nb_self hin h1
    have hymp : ym Ny p = p := by
      unfold ym
      rw [hs.1]
    rw [hymp, hp] at hm
    exact hm rfl
  · have h1' : 1 < Ny := by omega
    have hym_even : nbm Ny p.2.1 % 2 = 0 := by
      by_contra hodd
      have hodd' : (ym Ny p).2.1 % 2 = 1 := by
        simp only [ym]
        omega
      obtain ⟨hA, hB, hC, hD⟩ := (hG (ym Ny p) hm).2.1 hodd'
      simp only [ym] at hA hB hC hD
      rw [nbm_eq hin] at hA hB hC hD
      by_cases h0 : p.2.1 = 0
      · rw [if_pos h0] at hB
        omega
      · rw [if_neg h0] at hD
        have he : p.2.1 - 1 + 1 = p.2.1 := by
          rw [if_neg h0] at hA
          omega
        rw [he, cell_eta] at hD
        exact hD hp
    have hyp_even : nbp Ny p.2.1 % 2 = 0 := by
      by_contra hodd
      have hodd' : (yp Ny p).2.1 % 2 = 1 := by
        simp only [yp]
        omega
      obtain ⟨hA, hB, hC, hD⟩ := (hG (yp Ny p) hpp).2.1 hodd'
      simp only [yp] at hA hB hC hD
      rw [nbp_eq hin] at hA hB hC hD
      by_cases h0 : p.2.1 = Ny - 1
      · rw [if_pos h0] at hA
        omega
      · rw [if_neg h0] at hC
        have he : p.2.1 + 1 - 1 = p.2.1 := by omega
        rw [he, cell_eta] at hC
        exact hC hp
    obtain ⟨ho, he1, he2, hb1, hb2⟩ := both_even hNy h1' hin hym_even hyp_even
    refine ⟨ho, ?_, ?_, hb1, hb2⟩
    · unfold ym
      rw [he1]
    · unfold yp
      rw [he2]

/-- `pairX_odd` along the z-axis. -/
theorem pairZ_odd {Nx Ny Nz : ℕ} {μ : CMap} (hNz : Nz % 2 = 1)
    (hG : Good Nx Ny Nz μ) {p : Cell} (hin : p.2.2 < Nz) (hp : μ p = 0)
    (hm : μ (zm Nz p) ≠ 0) (hpp : μ (zp Nz p) ≠ 0) :
    p.2.2 % 2 = 1 ∧ zm Nz p = (p.1, p.2.1, p.2.2 - 1) ∧
      zp Nz p = (p.1, p.2.1, p.2.2 + 1) ∧ 1 ≤ p.2.2 ∧ p.2.2 + 1 < Nz := by
  by_cases h1 : Nz = 1
  · exfalso
    have hs := nb_self hin h1
    have hzmp : zm Nz p = p := by
      unfold zm
      rw [hs.1]
    rw [hzmp, hp] at hm
    exact hm rfl
  · have h1' : 1 < Nz := by omega
    have hzm_even : nbm Nz p.2.2 % 2 = 0 := by
      by_contra hodd
      have hodd' : (zm Nz p).2.2 % 2 = 1 := by
        simp only [zm]
        omega
      obtain ⟨hA, hB, hC, hD⟩ := (hG (zm Nz p) hm).2.2 hodd'
      simp only [zm] at hA hB hC hD
      rw [nbm_eq hin] at hA hB hC hD
      by_cases h0 : p.2.2 = 0
      · rw [if_pos h0] at hB
        omega
      · rw [if_neg h0] at hD
        have he : p.2.2 - 1 + 1 = p.2.2 := by
          rw [if_neg h0] at hA
          omega
        rw [he, cell_eta] at hD
        exact hD hp
    have hzp_even : nbp Nz p.2.2 % 2 = 0 := by
      by_contra hodd
      have hodd' : (zp Nz p).2.2 % 2 = 1 := by
        simp only [zp]
        omega
      obtain ⟨hA, hB, hC, hD⟩ := (hG (zp Nz p) hpp).2.2 hodd'
      simp only [zp] at hA hB hC hD
      rw [nbp_eq hin] at hA hB hC hD
      by_cases h0 : p.2.2 = Nz - 1
      · rw [if_pos h0] at hA
        omega
      · rw [if_neg h0] at hC
        have he : p.2.2 + 1 - 1 = p.2.2 := by omega
        rw [he, cell_eta] at hC
        exact hC hp
    obtain ⟨ho, he1, he2, hb1, hb2⟩ := both_even hNz h1' hin hzm_even hzp_even
    refine ⟨ho, ?_, ?_, hb1, hb2⟩
    · unfold zm
      rw [he1]
    · unfold zp
      rw [he2]

theorem vCond_mk {g : Cell → ℚ} {Nx Ny Nz a b c : ℕ} :
    vCond g Nx Ny Nz (a, b, c) ↔
      a % 2 = 0 ∧ b % 2 = 0 ∧ c % 2 = 0 ∧ (a < Nx ∧ b < Ny ∧ c < Nz) ∧
        g (a / 2, b / 2, c / 2) ≠ 0 :=
  Iff.rfl

theorem m1_to_m2 {g : Cell → ℚ} {Nx Ny Nz : ℕ} {q : Cell}
    (h : m1Map g Nx Ny Nz q ≠ 0) : m2Map g Nx Ny Nz q ≠ 0 :=
  m2_ne.mpr (Or.inl (m1_ne.mp h))

theorem m2_to_m3 {g : Cell → ℚ} {Nx Ny Nz : ℕ} {q : Cell}
    (h : m2Map g Nx Ny Nz q ≠ 0) : m3Map g Nx Ny Nz q ≠ 0 := by
  rcases m2_ne.mp h with hv | he
  · exact m3_ne.mpr (Or.inl hv)
  · exact m3_ne.mpr (Or.inr (Or.inl he))

theorem m3_to_m4 {g : Cell → ℚ} {Nx Ny Nz : ℕ} {q : Cell}
    (h : m3Map g Nx Ny Nz q ≠ 0) : m4Map g Nx Ny Nz q ≠ 0 := by
  rcases m3_ne.mp h with hv | he | hf
  · exact m4_ne.mpr (Or.inl hv)
  · exact m4_ne.mpr (Or.inr (Or.inl he))
  · exact m4_ne.mpr (Or.inr (Or.inr (Or.inl hf)))

theorem good_m1 (g : Cell → ℚ) (Nx Ny Nz : ℕ) :
    Good Nx Ny Nz (m1Map g Nx Ny Nz) := by
  intro s hs
  obtain ⟨h1, h2, h3, _, _⟩ := m1_ne.mp hs
  exact ⟨fun ho => absurd ho (by omega), fun ho => absurd ho (by omega),
    fun ho => absurd ho (by omega)⟩

/-- An edge-pass fired cell has exactly one odd coordinate, interior on
its axis, and its two literal neighbours on that axis are vertices. -/
theorem eFired_struct {g : Cell → ℚ} {Nx Ny Nz : ℕ}
    (hNx : Nx % 2 = 1) (hNy : Ny % 2 = 1) (hNz : Nz % 2 = 1)
    {c : Cell} (hf : eFired g Nx Ny Nz c) :
    (c.1 % 2 = 1 ∧ c.2.1 % 2 = 0 ∧ c.2.2 % 2 = 0 ∧ 1 ≤ c.1 ∧ c.1 + 1 < Nx ∧
       vCond g Nx Ny Nz (c.1 - 1, c.2.1, c.2.2) ∧
       vCond g Nx Ny Nz (c.1 + 1, c.2.1, c.2.2)) ∨
    (c.1 % 2 = 0 ∧ c.2.1 % 2 = 1 ∧ c.2.2 % 2 = 0 ∧ 1 ≤ c.2.1 ∧ c.2.1 + 1 < Ny ∧
       vCond g Nx Ny Nz (c.1, c.2.1 - 1, c.2.2) ∧
       vCond g Nx Ny Nz (c.1, c.2.1 + 1, c.2.2)) ∨
    (c.1 % 2 = 0 ∧ c.2.1 % 2 = 0 ∧ c.2.2 % 2 = 1 ∧ 1 ≤ c.2.2 ∧ c.2.2 + 1 < Nz ∧
       vCond g Nx Ny Nz (c.1, c.2.1, c.2.2 - 1) ∧
       vCond g Nx Ny Nz (c.1, c.2.1, c.2.2 + 1)) := by
  obtain ⟨hin, h0, hcond⟩ := hf
  obtain ⟨hin1, hin2, hin3⟩ := hin
  rcases hcond with ⟨ha, hb⟩ | ⟨ha, hb⟩ | ⟨ha, hb⟩
  · obtain ⟨ho, hxm, hxp, hb1, hb2⟩ := pairX_odd hNx (good_m1 g Nx Ny Nz) hin1 h0 ha hb
    rw [hxm] at ha
    rw [hxp] at hb
    have hvm := m1_ne.mp ha
    have hvp := m1_ne.mp hb
    exact Or.inl ⟨ho, (vCond_mk.mp hvm).2.1, (vCond_mk.mp hvm).2.2.1, hb1, hb2, hvm, hvp⟩
  · obtain ⟨ho, hym, hyp, hb1, hb2⟩ := pairY_odd hNy (good_m1 g Nx Ny Nz) hin2 h0 ha hb
    rw [hym] at ha
    rw [hyp] at hb
    have hvm := m1_ne.mp ha
    have hvp := m1_ne.mp hb
    exact Or.inr (Or.inl ⟨(vCond_mk.mp hvm).1, ho, (vCond_mk.mp hvm).2.2.1, hb1, hb2, hvm, hvp⟩)
  · obtain ⟨ho, hzm, hzp, hb1, hb2⟩ := pairZ_odd hNz (good_m1 g Nx Ny Nz) hin3 h0 ha hb
    rw [hzm] at ha
    rw [hzp] at hb
    have hvm := m1_ne.mp ha
    have hvp := m1_ne.mp hb
    exact Or.inr (Or.inr ⟨(vCond_mk.mp hvm).1, (vCond_mk.mp hvm).2.1, ho, hb1, hb2, hvm, hvp⟩)

theorem good_m2 (g : Cell → ℚ) {Nx Ny Nz : ℕ}
    (hNx : Nx % 2 = 1) (hNy : Ny % 2 = 1) (hNz : Nz % 2 = 1) :
    Good Nx Ny Nz (m2Map g Nx Ny Nz) := by
  intro s hs
  rcases m2_ne.mp hs with hv | he
  · obtain ⟨h1, h2, h3, _, _⟩ := hv
    exact ⟨fun ho => absurd ho (by omega), fun ho => absurd ho (by omega),
      fun ho => absurd ho (by omega)⟩
  · rcases eFired_struct hNx hNy hNz he with
      ⟨ho, h2, h3, hb1, hb2, hvm, hvp⟩ | ⟨h1, ho, h3, hb1, hb2, hvm, hvp⟩ |
      ⟨h1, h2, ho, hb1, hb2, hvm, hvp⟩
    · exact ⟨fun _ => ⟨hb1, hb2, m1_to_m2 (m1_ne.mpr hvm), m1_to_m2 (m1_ne.mpr hvp)⟩,
        fun hodd => absurd hodd (by omega), fun hodd => absurd hodd (by omega)⟩
    · exact ⟨fun hodd => absurd hodd (by omega),
        fun _ => ⟨hb1, hb2, m1_to_m2 (m1_ne.mpr hvm), m1_to_m2 (m1_ne.mpr hvp)⟩,
        fun hodd => absurd hodd (by omega)⟩
    · exact ⟨fun hodd => absurd hodd (by omega), fun hodd => absurd hodd (by omega),
        fun _ => ⟨hb1, hb2, m1_to_m2 (m1_ne.mpr hvm), m1_to_m2 (m1_ne.mpr hvp)⟩⟩

/-- A face-pass fired cell has exactly two odd coordinates, interior on
their axes, and its four literal boundary edges are nonzero in the edge
state. -/
theorem fFired_struct {g : Cell → ℚ} {Nx Ny Nz : ℕ}
    (hNx : Nx % 2 = 1) (hNy : Ny % 2 = 1) (hNz : Nz % 2 = 1)
    {c : Cell} (hf : fFired g Nx Ny Nz c) :
    (c.1 % 2 = 1 ∧ c.2.1 % 2 = 1 ∧ c.2.2 % 2 = 0 ∧
       1 ≤ c.1 ∧ c.1 + 1 < Nx ∧ 1 ≤ c.2.1 ∧ c.2.1 + 1 < Ny ∧
       m2Map g Nx Ny Nz (c.1 - 1, c.2.1, c.2.2) ≠ 0 ∧
       m2Map g Nx Ny Nz (c.1 + 1, c.2.1, c.2.2) ≠ 0 ∧
       m2Map g Nx Ny Nz (c.1, c.2.1 - 1, c.2.2) ≠ 0 ∧
       m2Map g Nx Ny Nz (c.1, c.2.1 + 1, c.2.2) ≠ 0) ∨
    (c.1 % 2 = 0 ∧ c.2.1 % 2 = 1 ∧ c.2.2 % 2 = 1 ∧
       1 ≤ c.2.1 ∧ c.2.1 + 1 < Ny ∧ 1 ≤ c.2.2 ∧ c.2.2 + 1 < Nz ∧
       m2Map g Nx Ny Nz (c.1, c.2.1 - 1, c.2.2) ≠ 0 ∧
       m2Map g Nx Ny Nz (c.1, c.2.1 + 1, c.2.2) ≠ 0 ∧
       m2Map g Nx Ny Nz (c.1, c.2.1, c.2.2 - 1) ≠ 0 ∧
       m2Map g Nx Ny Nz (c.1, c.2.1, c.2.2 + 1) ≠ 0) ∨
    (c.1 % 2 = 1 ∧ c.2.1 % 2 = 0 ∧ c.2.2 % 2 = 1 ∧
       1 ≤ c.2.2 ∧ c.2.2 + 1 < Nz ∧ 1 ≤ c.1 ∧ c.1 + 1 < Nx ∧
       m2Map g Nx Ny Nz (c.1, c.2.1, c.2.2 - 1) ≠ 0 ∧
       m2Map g Nx Ny Nz (c.1, c.2.1, c.2.2 + 1) ≠ 0 ∧
       m2Map g Nx Ny Nz (c.1 - 1, c.2.1, c.2.2) ≠ 0 ∧
       m2Map g Nx Ny Nz (c.1 + 1, c.2.1, c.2.2) ≠ 0) := by
  obtain ⟨hin, h0, hcond⟩ := hf
  obtain ⟨hin1, hin2, hin3⟩ := hin
  have hG := good_m2 g hNx hNy hNz
  rcases hcond with ⟨ha, hb, hc1, hd⟩ | ⟨ha, hb, hc1, hd⟩ | ⟨ha, hb, hc1, hd⟩
  · have hc1' : m2Map g Nx Ny Nz (ym Ny c) ≠ 0 := by
      rw [hc1]
      exact one_ne_zero
    obtain ⟨hox, hxm, hxp, hbx1, hbx2⟩ := pairX_odd hNx hG hin1 h0 ha hb
    obtain ⟨hoy, hym, hyp, hby1, hby2⟩ := pairY_odd hNy hG hin2 h0 hc1' hd
    rw [hxm] at ha
    rw [hxp] at hb
    rw [hym] at hc1'
    rw [hyp] at hd
    have hze : c.2.2 % 2 = 0 := by
      rcases m2_ne.mp ha with hv | he
      · exact (vCond_mk.mp hv).2.2.1
      · rcases eFired_struct hNx hNy hNz he with hX | hY | hZ
        · have h' : (c.1 - 1) % 2 = 1 := hX.1
          omega
        · exact hY.2.2.1
        · have h' : c.2.1 % 2 = 0 := hZ.2.1
          omega
    exact Or.inl ⟨hox, hoy, hze, hbx1, hbx2, hby1, hby2, ha, hb, hc1', hd⟩
  · obtain ⟨hoy, hym, hyp, hby1, hby2⟩ := pairY_odd hNy hG hin2 h0 ha hb
    obtain ⟨hoz, hzm, hzp, hbz1, hbz2⟩ := pairZ_odd hNz hG hin3 h0 hc1 hd
    rw [hym] at ha
    rw [hyp] at hb
    rw [hzm] at hc1
    rw [hzp] at hd
    have hxe : c.1 % 2 = 0 := by
      rcases m2_ne.mp ha with hv | he
      · exact (vCond_mk.mp hv).1
      · rcases eFired_struct hNx hNy hNz he with hX | hY | hZ
        · have h' : c.2.2 % 2 = 0 := hX.2.2.1
          omega
        · have h' : (c.2.1 - 1) % 2 = 1 := hY.2.1
          omega
        · exact hZ.1
    exact Or.inr (Or.inl ⟨hxe, hoy, hoz, hby1, hby2, hbz1, hbz2, ha, hb, hc1, hd⟩)
  · obtain ⟨hoz, hzm, hzp, hbz1, hbz2⟩ := pairZ_odd hNz hG hin3 h0 ha hb
    obtain ⟨hox, hxm, hxp, hbx1, hbx2⟩ := pairX_odd hNx hG hin1 h0 hc1 hd
    rw [hzm] at ha
    rw [hzp] at hb
    rw [hxm] at hc1
    rw [hxp] at hd
    have hye : c.2.1 % 2 = 0 := by
      rcases m2_ne.mp ha with hv | he
      · exact (vCond_mk.mp hv).2.1
      · rcases eFired_struct hNx hNy hNz he with hX | hY | hZ
        · exact hX.2.1
        · have h' : c.1 % 2 = 0 := hY.1
          omega
        · have h' : c.1 % 2 = 0 := hZ.1
          omega
    exact Or.inr (Or.inr ⟨hox, hye, hoz, hbz1, hbz2, hbx1, hbx2, ha, hb, hc1, hd⟩)

theorem good_m3 (g : Cell → ℚ) {Nx Ny Nz : ℕ}
    (hNx : Nx % 2 = 1) (hNy : Ny % 2 = 1) (hNz : Nz % 2 = 1) :
    Good Nx Ny Nz (m3Map g Nx Ny Nz) := by
  intro s hs
  rcases m3_ne.mp hs with hv | he | hf
  · obtain ⟨h1, h2, h3, _, _⟩ := hv
    exact ⟨fun ho => absurd ho (by omega), fun ho => absurd ho (by omega),
      fun ho => absurd ho (by omega)⟩
  · rcases eFired_struct hNx hNy hNz he with
      ⟨ho, h2, h3, hb1, hb2, hvm, hvp⟩ | ⟨h1, ho, h3, hb1, hb2, hvm, hvp⟩ |
      ⟨h1, h2, ho, hb1, hb2, hvm, hvp⟩
    · exact ⟨fun _ => ⟨hb1, hb2, m2_to_m3 (m1_to_m2 (m1_ne.mpr hvm)),
          m2_to_m3 (m1_to_m2 (m1_ne.mpr hvp))⟩,
        fun hodd => absurd hodd (by omega), fun hodd => absurd hodd (by omega)⟩
    · exact ⟨fun hodd => absurd hodd (by omega),
        fun _ => ⟨hb1, hb2, m2_to_m3 (m1_to_m2 (m1_ne.mpr hvm)),
          m2_to_m3 (m1_to_m2 (m1_ne.mpr hvp))⟩,
        fun hodd => absurd hodd (by omega)⟩
    · exact ⟨fun hodd => absurd hodd (by omega), fun hodd => absurd hodd (by omega),
        fun _ => ⟨hb1, hb2, m2_to_m3 (m1_to_m2 (m1_ne.mpr hvm)),
          m2_to_m3 (m1_to_m2 (m1_ne.mpr hvp))⟩⟩
  · rcases fFired_struct hNx hNy hNz hf with
      ⟨h1, h2, h3, hx1, hx2, hy1, hy2, ha, hb, hc1, hd⟩ |
      ⟨h1, h2, h3, hy1, hy2, hz1, hz2, ha, hb, hc1, hd⟩ |
      ⟨h1, h2, h3, hz1, hz2, hx1, hx2, hc1, hd, ha, hb⟩
    · exact ⟨fun _ => ⟨hx1, hx2, m2_to_m3 ha, m2_to_m3 hb⟩,
        fun _ => ⟨hy1, hy2, m2_to_m3 hc1, m2_to_m3 hd⟩,
        fun hodd => absurd hodd (by omega)⟩
    · exact ⟨fun hodd => absurd hodd (by omega),
        fun _ => ⟨hy1, hy2, m2_to_m3 ha, m2_to_m3 hb⟩,
        fun _ => ⟨hz1, hz2, m2_to_m3 hc1, m2_to_m3 hd⟩⟩
    · exact ⟨fun _ => ⟨hx1, hx2, m2_to_m3 ha, m2_to_m3 hb⟩,
        fun hodd => absurd hodd (by omega),
        fun _ => ⟨hz1, hz2, m2_to_m3 hc1, m2_to_m3 hd⟩⟩

/-- A cube-pass fired cell has all three coordinates odd and interior,
and its six literal boundary faces are nonzero in the face state. -/
theorem cFired_struct {g : Cell → ℚ} {Nx Ny Nz : ℕ}
    (hNx : Nx % 2 = 1) (hNy : Ny % 2 = 1) (hNz : Nz % 2 = 1)
    {c : Cell} (hf : cFired g Nx Ny Nz c) :
    c.1 % 2 = 1 ∧ c.2.1 % 2 = 1 ∧ c.2.2 % 2 = 1 ∧
      1 ≤ c.1 ∧ c.1 + 1 < Nx ∧ 1 ≤ c.2.1 ∧ c.2.1 + 1 < Ny ∧
      1 ≤ c.2.2 ∧ c.2.2 + 1 < Nz ∧
      m3Map g Nx Ny Nz (c.1 - 1, c.2.1, c.2.2) ≠ 0 ∧
      m3Map g Nx Ny Nz (c.1 + 1, c.2.1, c.2.2) ≠ 0 ∧
      m3Map g Nx Ny Nz (c.1, c.2.1 - 1, c.2.2) ≠ 0 ∧
      m3Map g Nx Ny Nz (c.1, c.2.1 + 1, c.2.2) ≠ 0 ∧
      m3Map g Nx Ny Nz (c.1, c.2.1, c.2.2 - 1) ≠ 0 ∧
      m3Map g Nx Ny Nz (c.1, c.2.1, c.2.2 + 1) ≠ 0 := by
  obtain ⟨hin, h0, ⟨ha, hb⟩, ⟨hc1, hd⟩, ⟨he, hf2⟩⟩ := hf
  obtain ⟨hin1, hin2, hin3⟩ := hin
  have hG := good_m3 g hNx hNy hNz
  obtain ⟨hox, hxm, hxp, hbx1, hbx2⟩ := pairX_odd hNx hG hin1 h0 ha hb
  obtain ⟨hoy, hym, hyp, hby1, hby2⟩ := pairY_odd hNy hG hin2 h0 hc1 hd
  obtain ⟨hoz, hzm, hzp, hbz1, hbz2⟩ := pairZ_odd hNz hG hin3 h0 he hf2
  rw [hxm] at ha
  rw [hxp] at hb
  rw [hym] at hc1
  rw [hyp] at hd
  rw [hzm] at he
  rw [hzp] at hf2
  exact ⟨hox, hoy, hoz, hbx1, hbx2, hby1, hby2, hbz1, hbz2, ha, hb, hc1, hd, he, hf2⟩

theorem good_m4 (g : Cell → ℚ) {Nx Ny Nz : ℕ}
    (hNx : Nx % 2 = 1) (hNy : Ny % 2 = 1) (hNz : Nz % 2 = 1) :
    Good Nx Ny Nz (m4Map g Nx Ny Nz) := by
  intro s hs
  rcases m4_ne.mp hs with hv | he | hf | hc
  · obtain ⟨h1, h2, h3, _, _⟩ := hv
    exact ⟨fun ho => absurd ho (by omega), fun ho => absurd ho (by omega),
      fun ho => absurd ho (by omega)⟩
  · rcases eFired_struct hNx hNy hNz he with
      ⟨ho, h2, h3, hb1, hb2, hvm, hvp⟩ | ⟨h1, ho, h3, hb1, hb2, hvm, hvp⟩ |
      ⟨h1, h2, ho, hb1, hb2, hvm, hvp⟩
    · exact ⟨fun _ => ⟨hb1, hb2, m3_to_m4 (m2_to_m3 (m1_to_m2 (m1_ne.mpr hvm))),
          m3_to_m4 (m2_to_m3 (m1_to_m2 (m1_ne.mpr hvp)))⟩,
        fun hodd => absurd hodd (by omega), fun hodd => absurd hodd (by omega)⟩
    · exact ⟨fun hodd => absurd hodd (by omega),
        fun _ => ⟨hb1, hb2, m3_to_m4 (m2_to_m3 (m1_to_m2 (m1_ne.mpr hvm))),
          m3_to_m4 (m2_to_m3 (m1_to_m2 (m1_ne.mpr hvp)))⟩,
        fun hodd => absurd hodd (by omega)⟩
    · exact ⟨fun hodd => absurd hodd (by omega), fun hodd => absurd hodd (by omega),
        fun _ => ⟨hb1, hb2, m3_to_m4 (m2_to_m3 (m1_to_m2 (m1_ne.mpr hvm))),
          m3_to_m4 (m2_to_m3 (m1_to_m2 (m1_ne.mpr hvp)))⟩⟩
  · rcases fFired_struct hNx hNy hNz hf with
      ⟨h1, h2, h3, hx1, hx2, hy1, hy2, ha, hb, hc1, hd⟩ |
      ⟨h1, h2, h3, hy1, hy2, hz1, hz2, ha, hb, hc1, hd⟩ |
      ⟨h1, h2, h3, hz1, hz2, hx1, hx2, hc1, hd, ha, hb⟩
    · exact ⟨fun _ => ⟨hx1, hx2, m3_to_m4 (m2_to_m3 ha), m3_to_m4 (m2_to_m3 hb)⟩,
        fun _ => ⟨hy1, hy2, m3_to_m4 (m2_to_m3 hc1), m3_to_m4 (m2_to_m3 hd)⟩,
        fun hodd => absurd hodd (by omega)⟩
    · exact ⟨fun hodd => absurd hodd (by omega),
        fun _ => ⟨hy1, hy2, m3_to_m4 (m2_to_m3 ha), m3_to_m4 (m2_to_m3 hb)⟩,
        fun _ => ⟨hz1, hz2, m3_to_m4 (m2_to_m3 hc1), m3_to_m4 (m2_to_m3 hd)⟩⟩
    · exact ⟨fun _ => ⟨hx1, hx2, m3_to_m4 (m2_to_m3 ha), m3_to_m4 (m2_to_m3 hb)⟩,
        fun hodd => absurd hodd (by omega),
        fun _ => ⟨hz1, hz2, m3_to_m4 (m2_to_m3 hc1), m3_to_m4 (m2_to_m3 hd)⟩⟩
  · obtain ⟨h1, h2, h3, hx1, hx2, hy1, hy2, hz1, hz2, ha, hb, hc1, hd, he, hf2⟩ :=
      cFired_struct hNx hNy hNz hc
    exact ⟨fun _ => ⟨hx1, hx2, m3_to_m4 ha, m3_to_m4 hb⟩,
      fun _ => ⟨hy1, hy2, m3_to_m4 hc1, m3_to_m4 hd⟩,
      fun _ => ⟨hz1, hz2, m3_to_m4 he, m3_to_m4 hf2⟩⟩

/-!  ### Overlay states seen during a pass  -/

theorem ovl_ne_iff {C : Cell → Bool} {m₀ : CMap} {q : Cell} :
    ovl C m₀ q ≠ 0 ↔ (C q = true ∨ m₀ q ≠ 0) := by
  cases hC : C q
  · rw [ovl_neg hC]
    simp
  · rw [ovl_pos hC]
    simp

theorem ovl_one_of_base {C : Cell → Bool} {m₀ : CMap} {q : Cell}
    (h : m₀ q = 1) : ovl C m₀ q = 1 := by
  cases hC : C q
  · rw [ovl_neg hC]
    exact h
  · exact ovl_pos hC

theorem ovl_01 {C : Cell → Bool} {m₀ : CMap}
    (h01 : ∀ q, m₀ q = 0 ∨ m₀ q = 1) (q : Cell) :
    ovl C m₀ q = 0 ∨ ovl C m₀ q = 1 := by
  cases hC : C q
  · rw [ovl_neg hC]
    exact h01 q
  · exact Or.inr (ovl_pos hC)

/-- The good invariant lifts to an overlay whose selected cells satisfy
the clauses with respect to the base state. -/
theorem good_ovl {Nx Ny Nz : ℕ} {μ : CMap} {C : Cell → Bool}
    (hGμ : Good Nx Ny Nz μ)
    (hC : ∀ s, C s = true →
      (s.1 % 2 = 1 → 1 ≤ s.1 ∧ s.1 + 1 < Nx ∧
        μ (s.1 - 1, s.2.1, s.2.2) ≠ 0 ∧ μ (s.1 + 1, s.2.1, s.2.2) ≠ 0) ∧
      (s.2.1 % 2 = 1 → 1 ≤ s.2.1 ∧ s.2.1 + 1 < Ny ∧
        μ (s.1, s.2.1 - 1, s.2.2) ≠ 0 ∧ μ (s.1, s.2.1 + 1, s.2.2) ≠ 0) ∧
      (s.2.2 % 2 = 1 → 1 ≤ s.2.2 ∧ s.2.2 + 1 < Nz ∧
        μ (s.1, s.2.1, s.2.2 - 1) ≠ 0 ∧ μ (s.1, s.2.1, s.2.2 + 1) ≠ 0)) :
    Good Nx Ny Nz (ovl C μ) := by
  intro s hs
  have base :
      (s.1 % 2 = 1 → 1 ≤ s.1 ∧ s.1 + 1 < Nx ∧
        μ (s.1 - 1, s.2.1, s.2.2) ≠ 0 ∧ μ (s.1 + 1, s.2.1, s.2.2) ≠ 0) ∧
      (s.2.1 % 2 = 1 → 1 ≤ s.2.1 ∧ s.2.1 + 1 < Ny ∧
        μ (s.1, s.2.1 - 1, s.2.2) ≠ 0 ∧ μ (s.1, s.2.1 + 1, s.2.2) ≠ 0) ∧
      (s.2.2 % 2 = 1 → 1 ≤ s.2.2 ∧ s.2.2 + 1 < Nz ∧
        μ (s.1, s.2.1, s.2.2 - 1) ≠ 0 ∧ μ (s.1, s.2.1, s.2.2 + 1) ≠ 0) := by
    rcases ovl_ne_iff.mp hs with hCs | hμ
    · exact hC s hCs
    · exact hGμ s hμ
  obtain ⟨h1, h2, h3⟩ := base
  refine ⟨fun ho => ?_, fun ho => ?_, fun ho => ?_⟩
  · obtain ⟨a, b, c, d⟩ := h1 ho
    exact ⟨a, b, ovl_ne_iff.mpr (Or.inr c), ovl_ne_iff.mpr (Or.inr d)⟩
  · obtain ⟨a, b, c, d⟩ := h2 ho
    exact ⟨a, b, ovl_ne_iff.mpr (Or.inr c), ovl_ne_iff.mpr (Or.inr d)⟩
  · obtain ⟨a, b, c, d⟩ := h3 ho
    exact ⟨a, b, ovl_ne_iff.mpr (Or.inr c), ovl_ne_iff.mpr (Or.inr d)⟩

theorem eFired_clauses {g : Cell → ℚ} {Nx Ny Nz : ℕ}
    (hNx : Nx % 2 = 1) (hNy : Ny % 2 = 1) (hNz : Nz % 2 = 1)
    {s : Cell} (hE : eFired g Nx Ny Nz s) :
    (s.1 % 2 = 1 → 1 ≤ s.1 ∧ s.1 + 1 < Nx ∧
      m1Map g Nx Ny Nz (s.1 - 1, s.2.1, s.2.2) ≠ 0 ∧
      m1Map g Nx Ny Nz (s.1 + 1, s.2.1, s.2.2) ≠ 0) ∧
    (s.2.1 % 2 = 1 → 1 ≤ s.2.1 ∧ s.2.1 + 1 < Ny ∧
      m1Map g Nx Ny Nz (s.1, s.2.1 - 1, s.2.2) ≠ 0 ∧
      m1Map g Nx Ny Nz (s.1, s.2.1 + 1, s.2.2) ≠ 0) ∧
    (s.2.2 % 2 = 1 → 1 ≤ s.2.2 ∧ s.2.2 + 1 < Nz ∧
      m1Map g Nx Ny Nz (s.1, s.2.1, s.2.2 - 1) ≠ 0 ∧
      m1Map g Nx Ny Nz (s.1, s.2.1, s.2.2 + 1) ≠ 0) := by
  rcases eFired_struct hNx hNy hNz hE with
    ⟨ho, h2, h3, hb1, hb2, hvm, hvp⟩ | ⟨h1, ho, h3, hb1, hb2, hvm, hvp⟩ |
    ⟨h1, h2, ho, hb1, hb2, hvm, hvp⟩
  · exact ⟨fun _ => ⟨hb1, hb2, m1_ne.mpr hvm, m1_ne.mpr hvp⟩,
      fun hodd => absurd hodd (by omega), fun hodd => absurd hodd (by omega)⟩
  · exact ⟨fun hodd => absurd hodd (by omega),
      fun _ => ⟨hb1, hb2, m1_ne.mpr hvm, m1_ne.mpr hvp⟩,
      fun hodd => absurd hodd (by omega)⟩
  · exact ⟨fun hodd => absurd hodd (by omega), fun hodd => absurd hodd (by omega),
      fun _ => ⟨hb1, hb2, m1_ne.mpr hvm, m1_ne.mpr hvp⟩⟩

theorem fFired_clauses {g : Cell → ℚ} {Nx Ny Nz : ℕ}
    (hNx : Nx % 2 = 1) (hNy : Ny % 2 = 1) (hNz : Nz % 2 = 1)
    {s : Cell} (hF : fFired g Nx Ny Nz s) :
    (s.1 % 2 = 1 → 1 ≤ s.1 ∧ s.1 + 1 < Nx ∧
      m2Map g Nx Ny Nz (s.1 - 1, s.2.1, s.2.2) ≠ 0 ∧
      m2Map g Nx Ny Nz (s.1 + 1, s.2.1, s.2.2) ≠ 0) ∧
    (s.2.1 % 2 = 1 → 1 ≤ s.2.1 ∧ s.2.1 + 1 < Ny ∧
      m2Map g Nx Ny Nz (s.1, s.2.1 - 1, s.2.2) ≠ 0 ∧
      m2Map g Nx Ny Nz (s.1, s.2.1 + 1, s.2.2) ≠ 0) ∧
    (s.2.2 % 2 = 1 → 1 ≤ s.2.2 ∧ s.2.2 + 1 < Nz ∧
      m2Map g Nx Ny Nz (s.1, s.2.1, s.2.2 - 1) ≠ 0 ∧
      m2Map g Nx Ny Nz (s.1, s.2.1, s.2.2 + 1) ≠ 0) := by
  rcases fFired_struct hNx hNy hNz hF with
    ⟨h1, h2, h3, hx1, hx2, hy1, hy2, ha, hb, hc1, hd⟩ |
    ⟨h1, h2, h3, hy1, hy2, hz1, hz2, ha, hb, hc1, hd⟩ |
    ⟨h1, h2, h3, hz1, hz2, hx1, hx2, hc1, hd, ha, hb⟩
  · exact ⟨fun _ => ⟨hx1, hx2, ha, hb⟩, fun _ => ⟨hy1, hy2, hc1, hd⟩,
      fun hodd => absurd hodd (by omega)⟩
  · exact ⟨fun hodd => absurd hodd (by omega), fun _ => ⟨hy1, hy2, ha, hb⟩,
      fun _ => ⟨hz1, hz2, hc1, hd⟩⟩
  · exact ⟨fun _ => ⟨hx1, hx2, ha, hb⟩, fun hodd => absurd hodd (by omega),
      fun _ => ⟨hz1, hz2, hc1, hd⟩⟩

theorem cFired_clauses {g : Cell → ℚ} {Nx Ny Nz : ℕ}
    (hNx : Nx % 2 = 1) (hNy : Ny % 2 = 1) (hNz : Nz % 2 = 1)
    {s : Cell} (hc : cFired g Nx Ny Nz s) :
    (s.1 % 2 = 1 → 1 ≤ s.1 ∧ s.1 + 1 < Nx ∧
      m3Map g Nx Ny Nz (s.1 - 1, s.2.1, s.2.2) ≠ 0 ∧
      m3Map g Nx Ny Nz (s.1 + 1, s.2.1, s.2.2) ≠ 0) ∧
    (s.2.1 % 2 = 1 → 1 ≤ s.2.1 ∧ s.2.1 + 1 < Ny ∧
      m3Map g Nx Ny Nz (s.1, s.2.1 - 1, s.2.2) ≠ 0 ∧
      m3Map g Nx Ny Nz (s.1, s.2.1 + 1, s.2.2) ≠ 0) ∧
    (s.2.2 % 2 = 1 → 1 ≤ s.2.2 ∧ s.2.2 + 1 < Nz ∧
      m3Map g Nx Ny Nz (s.1, s.2.1, s.2.2 - 1) ≠ 0 ∧
      m3Map g Nx Ny Nz (s.1, s.2.1, s.2.2 + 1) ≠ 0) := by
  obtain ⟨h1, h2, h3, hx1, hx2, hy1, hy2, hz1, hz2, ha, hb, hc1, hd, he, hf2⟩ :=
    cFired_struct hNx hNy hNz hc
  exact ⟨fun _ => ⟨hx1, hx2, ha, hb⟩, fun _ => ⟨hy1, hy2, hc1, hd⟩,
    fun _ => ⟨hz1, hz2, he, hf2⟩⟩

theorem sigma_self {F : Cell → Bool} {m₀ : CMap} {p : Cell} :
    ovl (fun q => decide (lexLt q p) && F q) m₀ p = m₀ p :=
  ovl_neg (by simp [lexLt_irrefl p])

/-!  ### The Gauss-Seidel steps fire exactly the Jacobi cells

The heart of the development: during each pass the partially updated
state never enables a promotion that the pass-start state would not,
because the scan has not yet reached the "+1" neighbour of any cell it
is visiting (and the wrap-around neighbours are excluded by parity).  -/

theorem hmain_edge {g : Cell → ℚ} {Nx Ny Nz : ℕ}
    (hNx : Nx % 2 = 1) (hNy : Ny % 2 = 1) (hNz : Nz % 2 = 1) (p : Cell)
    (hin : inR Nx Ny Nz p) :
    ((ovl (fun q => decide (lexLt q p) && eB g Nx Ny Nz q) (m1Map g Nx Ny Nz)) p = 0 ∧
      edgeCondAt (ovl (fun q => decide (lexLt q p) && eB g Nx Ny Nz q) (m1Map g Nx Ny Nz))
        Nx Ny Nz p)
    ↔ eB g Nx Ny Nz p = true := by
  obtain ⟨hin1, hin2, hin3⟩ := hin
  set σ := ovl (fun q => decide (lexLt q p) && eB g Nx Ny Nz q) (m1Map g Nx Ny Nz) with hσdef
  have hσp : σ p = m1Map g Nx Ny Nz p := sigma_self
  have hmono : ∀ q, m1Map g Nx Ny Nz q ≠ 0 → σ q ≠ 0 :=
    fun q h => ovl_ne_iff.mpr (Or.inr h)
  have hσne : ∀ q, σ q ≠ 0 →
      (lexLt q p ∧ eFired g Nx Ny Nz q) ∨ m1Map g Nx Ny Nz q ≠ 0 := by
    intro q h
    rcases ovl_ne_iff.mp h with hC | hm
    · left
      simpa [eB] using hC
    · right
      exact hm
  have hG : Good Nx Ny Nz σ :=
    good_ovl (good_m1 g Nx Ny Nz) (fun s hCs =>
      eFired_clauses hNx hNy hNz (by
        have := (Bool.and_eq_true _ _).mp hCs
        exact of_decide_eq_true this.2))
  constructor
  · rintro ⟨h0σ, hcond⟩
    have h0m : m1Map g Nx Ny Nz p = 0 := by
      rw [← hσp]
      exact h0σ
    refine decide_eq_true ?_
    refine ⟨⟨hin1, hin2, hin3⟩, h0m, ?_⟩
    rcases hcond with ⟨ha, hb⟩ | ⟨ha, hb⟩ | ⟨ha, hb⟩
    · obtain ⟨ho, hxm, hxp, hb1, hb2⟩ := pairX_odd hNx hG hin1 h0σ ha hb
      rw [hxm] at ha
      rw [hxp] at hb
      have hbm : m1Map g Nx Ny Nz (p.1 + 1, p.2.1, p.2.2) ≠ 0 := by
        rcases hσne _ hb with ⟨hlex, _⟩ | hm
        · rw [← cell_eta p] at hlex
          exact absurd hlex (not_lexLt_xp p.1 p.2.1 p.2.2)
        · exact hm
      have hvp := m1_ne.mp hbm
      have ham : m1Map g Nx Ny Nz (p.1 - 1, p.2.1, p.2.2) ≠ 0 := by
        rcases hσne _ ha with ⟨hlex, hEF⟩ | hm
        · exfalso
          rcases eFired_struct hNx hNy hNz hEF with hX | hY | hZ
          · have h' : (p.1 - 1) % 2 = 1 := hX.1
            omega
          · have h' : p.2.1 % 2 = 1 := hY.2.1
            have h'' : p.2.1 % 2 = 0 := (vCond_mk.mp hvp).2.1
            omega
          · have h' : p.2.2 % 2 = 1 := hZ.2.2.1
            have h'' : p.2.2 % 2 = 0 := (vCond_mk.mp hvp).2.2.1
            omega
        · exact hm
      refine Or.inl ⟨?_, ?_⟩
      · rw [hxm]
        exact ham
      · rw [hxp]
        exact hbm
    · obtain ⟨ho, hym, hyp, hb1, hb2⟩ := pairY_odd hNy hG hin2 h0σ ha hb
      rw [hym] at ha
      rw [hyp] at hb
      have hbm : m1Map g Nx Ny Nz (p.1, p.2.1 + 1, p.2.2) ≠ 0 := by
        rcases hσne _ hb with ⟨hlex, _⟩ | hm
        · rw [← cell_eta p] at hlex
          exact absurd hlex (not_lexLt_yp p.1 p.2.1 p.2.2)
        · exact hm
      have hvp := m1_ne.mp hbm
      have ham : m1Map g Nx Ny Nz (p.1, p.2.1 - 1, p.2.2) ≠ 0 := by
        rcases hσne _ ha with ⟨hlex, hEF⟩ | hm
        · exfalso
          rcases eFired_struct hNx hNy hNz hEF with hX | hY | hZ
          · have h' : p.1 % 2 = 1 := hX.1
            have h'' : p.1 % 2 = 0 := (vCond_mk.mp hvp).1
            omega
          · have h' : (p.2.1 - 1) % 2 = 1 := hY.2.1
            omega
          · have h' : p.2.2 % 2 = 1 := hZ.2.2.1
            have h'' : p.2.2 % 2 = 0 := (vCond_mk.mp hvp).2.2.1
            omega
        · exact hm
      refine Or.inr (Or.inl ⟨?_, ?_⟩)
      · rw [hym]
        exact ham
      · rw [hyp]
        exact hbm
    · obtain ⟨ho, hzm, hzp, hb1, hb2⟩ := pairZ_odd hNz hG hin3 h0σ ha hb
      rw [hzm] at ha
      rw [hzp] at hb
      have hbm : m1Map g Nx Ny Nz (p.1, p.2.1, p.2.2 + 1) ≠ 0 := by
        rcases hσne _ hb with ⟨hlex, _⟩ | hm
        · rw [← cell_eta p] at hlex
          exact absurd hlex (not_lexLt_zp p.1 p.2.1 p.2.2)
        · exact hm
      have hvp := m1_ne.mp hbm
      have ham : m1Map g Nx Ny Nz (p.1, p.2.1, p.2.2 - 1) ≠ 0 := by
        rcases hσne _ ha with ⟨hlex, hEF⟩ | hm
        · exfalso
          rcases eFired_struct hNx hNy hNz hEF with hX | hY | hZ
          · have h' : p.1 % 2 = 1 := hX.1
            have h'' : p.1 % 2 = 0 := (vCond_mk.mp hvp).1
            omega
          · have h' : p.2.1 % 2 = 1 := hY.2.1
            have h'' : p.2.1 % 2 = 0 := (vCond_mk.mp hvp).2.1
            omega
          · have h' : (p.2.2 - 1) % 2 = 1 := hZ.2.2.1
            omega
        · exact hm
      refine Or.inr (Or.inr ⟨?_, ?_⟩)
      · rw [hzm]
        exact ham
      · rw [hzp]
        exact hbm
  · intro hEB
    have hEF : eFired g Nx Ny Nz p := of_decide_eq_true hEB
    obtain ⟨_, h0m, hcond⟩ := hEF
    refine ⟨by rw [hσp]; exact h0m, ?_⟩
    rcases hcond with ⟨ha, hb⟩ | ⟨ha, hb⟩ | ⟨ha, hb⟩
    · exact Or.inl ⟨hmono _ ha, hmono _ hb⟩
    · exact Or.inr (Or.inl ⟨hmono _ ha, hmono _ hb⟩)
    · exact Or.inr (Or.inr ⟨hmono _ ha, hmono _ hb⟩)

theorem hmain_face {g : Cell → ℚ} {Nx Ny Nz : ℕ}
    (hNx : Nx % 2 = 1) (hNy : Ny % 2 = 1) (hNz : Nz % 2 = 1) (p : Cell)
    (hin : inR Nx Ny Nz p) :
    ((ovl (fun q => decide (lexLt q p) && fB g Nx Ny Nz q) (m2Map g Nx Ny Nz)) p = 0 ∧
      faceCondAt (ovl (fun q => decide (lexLt q p) && fB g Nx Ny Nz q) (m2Map g Nx Ny Nz))
        Nx Ny Nz p)
    ↔ fB g Nx Ny Nz p = true := by
  obtain ⟨hin1, hin2, hin3⟩ := hin
  set σ := ovl (fun q => decide (lexLt q p) && fB g Nx Ny Nz q) (m2Map g Nx Ny Nz) with hσdef
  have hσp : σ p = m2Map g Nx Ny Nz p := sigma_self
  have hmono : ∀ q, m2Map g Nx Ny Nz q ≠ 0 → σ q ≠ 0 :=
    fun q h => ovl_ne_iff.mpr (Or.inr h)
  have hσne : ∀ q, σ q ≠ 0 →
      (lexLt q p ∧ fFired g Nx Ny Nz q) ∨ m2Map g Nx Ny Nz q ≠ 0 := by
    intro q h
    rcases ovl_ne_iff.mp h with hC | hm
    · left
      simpa [fB] using hC
    · right
      exact hm
  have hG : Good Nx Ny Nz σ :=
    good_ovl (good_m2 g hNx hNy hNz) (fun s hCs =>
      fFired_clauses hNx hNy hNz (by
        have := (Bool.and_eq_true _ _).mp hCs
        exact of_decide_eq_true this.2))
  constructor
  · rintro ⟨h0σ, hcond⟩
    have h0m : m2Map g Nx Ny Nz p = 0 := by
      rw [← hσp]
      exact h0σ
    refine decide_eq_true ?_
    refine ⟨⟨hin1, hin2, hin3⟩, h0m, ?_⟩
    rcases hcond with ⟨ha, hb, hc1, hd⟩ | ⟨ha, hb, hc1, hd⟩ | ⟨ha, hb, hc1, hd⟩
    · -- rule 1: x-pair and y-pair (with the `== 1` read on the y-minus side)
      have hc1' : σ (ym Ny p) ≠ 0 := by
        rw [hc1]
        exact one_ne_zero
      obtain ⟨hox, hxm, hxp, hbx1, hbx2⟩ := pairX_odd hNx hG hin1 h0σ ha hb
      obtain ⟨hoy, hym, hyp, hby1, hby2⟩ := pairY_odd hNy hG hin2 h0σ hc1' hd
      rw [hxm] at ha
      rw [hxp] at hb
      rw [hym] at hc1'
      rw [hyp] at hd
      have hbm : m2Map g Nx Ny Nz (p.1 + 1, p.2.1, p.2.2) ≠ 0 := by
        rcases hσne _ hb with ⟨hlex, _⟩ | hm
        · rw [← cell_eta p] at hlex
          exact absurd hlex (not_lexLt_xp p.1 p.2.1 p.2.2)
        · exact hm
      have hdm : m2Map g Nx Ny Nz (p.1, p.2.1 + 1, p.2.2) ≠ 0 := by
        rcases hσne _ hd with ⟨hlex, _⟩ | hm
        · rw [← cell_eta p] at hlex
          exact absurd hlex (not_lexLt_yp p.1 p.2.1 p.2.2)
        · exact hm
      have ham : m2Map g Nx Ny Nz (p.1 - 1, p.2.1, p.2.2) ≠ 0 := by
        rcases hσne _ ha with ⟨hlex, hFF⟩ | hm
        · exfalso
          rcases fFired_struct hNx hNy hNz hFF with hXY | hYZ | hZX
          · have h' : (p.1 - 1) % 2 = 1 := hXY.1
            omega
          · have hzo : p.2.2 % 2 = 1 := hYZ.2.2.1
            rcases m2_ne.mp hdm with hv | he
            · have h'' : p.1 % 2 = 0 := (vCond_mk.mp hv).1
              omega
            · rcases eFired_struct hNx hNy hNz he with hX | hY | hZ
              · have h'' : p.2.2 % 2 = 0 := hX.2.2.1
                omega
              · have h'' : (p.2.1 + 1) % 2 = 1 := hY.2.1
                omega
              · have h'' : p.1 % 2 = 0 := hZ.1
                omega
          · have h' : (p.1 - 1) % 2 = 1 := hZX.1
            omega
        · exact hm
      have hcm : m2Map g Nx Ny Nz (p.1, p.2.1 - 1, p.2.2) ≠ 0 := by
        rcases hσne _ hc1' with ⟨hlex, hFF⟩ | hm
        · exfalso
          rcases fFired_struct hNx hNy hNz hFF with hXY | hYZ | hZX
          · have h' : (p.2.1 - 1) % 2 = 1 := hXY.2.1
            omega
          · have h' : (p.2.1 - 1) % 2 = 1 := hYZ.2.1
            omega
          · have hzo : p.2.2 % 2 = 1 := hZX.2.2.1
            rcases m2_ne.mp hbm with hv | he
            · have h'' : p.2.1 % 2 = 0 := (vCond_mk.mp hv).2.1
              omega
            · rcases eFired_struct hNx hNy hNz he with hX | hY | hZ
              · have h'' : (p.1 + 1) % 2 = 1 := hX.1
                omega
              · have h'' : p.2.2 % 2 = 0 := hY.2.2.1
                omega
              · have h'' : p.2.1 % 2 = 0 := hZ.2.1
                omega
        · exact hm
      have hcm1 : m2Map g Nx Ny Nz (p.1, p.2.1 - 1, p.2.2) = 1 := by
        rcases m2_01 g Nx Ny Nz (p.1, p.2.1 - 1, p.2.2) with h | h
        · exact absurd h hcm
        · exact h
      refine Or.inl ⟨?_, ?_, ?_, ?_⟩
      · rw [hxm]
        exact ham
      · rw [hxp]
        exact hbm
      · rw [hym]
        exact hcm1
      · rw [hyp]
        exact hdm
    · -- rule 2: y-pair and z-pair
      obtain ⟨hoy, hym, hyp, hby1, hby2⟩ := pairY_odd hNy hG hin2 h0σ ha hb
      obtain ⟨hoz, hzm, hzp, hbz1, hbz2⟩ := pairZ_odd hNz hG hin3 h0σ hc1 hd
      rw [hym] at ha
      rw [hyp] at hb
      rw [hzm] at hc1
      rw [hzp] at hd
      have hbm : m2Map g Nx Ny Nz (p.1, p.2.1 + 1, p.2.2) ≠ 0 := by
        rcases hσne _ hb with ⟨hlex, _⟩ | hm
        · rw [← cell_eta p] at hlex
          exact absurd hlex (not_lexLt_yp p.1 p.2.1 p.2.2)
        · exact hm
      have hdm : m2Map g Nx Ny Nz (p.1, p.2.1, p.2.2 + 1) ≠ 0 := by
        rcases hσne _ hd with ⟨hlex, _⟩ | hm
        · rw [← cell_eta p] at hlex
          exact absurd hlex (not_lexLt_zp p.1 p.2.1 p.2.2)
        · exact hm
      have ham : m2Map g Nx Ny Nz (p.1, p.2.1 - 1, p.2.2) ≠ 0 := by
        rcases hσne _ ha with ⟨hlex, hFF⟩ | hm
        · exfalso
          rcases fFired_struct hNx hNy hNz hFF with hXY | hYZ | hZX
          · have h' : (p.2.1 - 1) % 2 = 1 := hXY.2.1
            omega
          · have h' : (p.2.1 - 1) % 2 = 1 := hYZ.2.1
            omega
          · have hxo : p.1 % 2 = 1 := hZX.1
            rcases m2_ne.mp hdm with hv | he
            · have h'' : p.1 % 2 = 0 := (vCond_mk.mp hv).1
              omega
            · rcases eFired_struct hNx hNy hNz he with hX | hY | hZ
              · have h'' : p.2.1 % 2 = 0 := hX.2.1
                omega
              · have h'' : p.1 % 2 = 0 := hY.1
                omega
              · have h'' : (p.2.2 + 1) % 2 = 1 := hZ.2.2.1
                omega
        · exact hm
      have hcm : m2Map g Nx Ny Nz (p.1, p.2.1, p.2.2 - 1) ≠ 0 := by
        rcases hσne _ hc1 with ⟨hlex, hFF⟩ | hm
        · exfalso
          rcases fFired_struct hNx hNy hNz hFF with hXY | hYZ | hZX
          · have hxo : p.1 % 2 = 1 := hXY.1
            rcases m2_ne.mp hbm with hv | he
            · have h'' : p.1 % 2 = 0 := (vCond_mk.mp hv).1
              omega
            · rcases eFired_struct hNx hNy hNz he with hX | hY | hZ
              · have h'' : p.2.2 % 2 = 0 := hX.2.2.1
                omega
              · have h'' : (p.2.1 + 1) % 2 = 1 := hY.2.1
                omega
              · have h'' : p.1 % 2 = 0 := hZ.1
                omega
          · have h' : (p.2.2 - 1) % 2 = 1 := hYZ.2.2.1
            omega
          · have h' : (p.2.2 - 1) % 2 = 1 := hZX.2.2.1
            omega
        · exact hm
      refine Or.inr (Or.inl ⟨?_, ?_, ?_, ?_⟩)
      · rw [hym]
        exact ham
      · rw [hyp]
        exact hbm
      · rw [hzm]
        exact hcm
      · rw [hzp]
        exact hdm
    · -- rule 3: z-pair and x-pair
      obtain ⟨hoz, hzm, hzp, hbz1, hbz2⟩ := pairZ_odd hNz hG hin3 h0σ ha hb
      obtain ⟨hox, hxm, hxp, hbx1, hbx2⟩ := pairX_odd hNx hG hin1 h0σ hc1 hd
      rw [hzm] at ha
      rw [hzp] at hb
      rw [hxm] at hc1
      rw [hxp] at hd
      have hbm : m2Map g Nx Ny Nz (p.1, p.2.1, p.2.2 + 1) ≠ 0 := by
        rcases hσne _ hb with ⟨hlex, _⟩ | hm
        · rw [← cell_eta p] at hlex
          exact absurd hlex (not_lexLt_zp p.1 p.2.1 p.2.2)
        · exact hm
      have hdm : m2Map g Nx Ny Nz (p.1 + 1, p.2.1, p.2.2) ≠ 0 := by
        rcases hσne _ hd with ⟨hlex, _⟩ | hm
        · rw [← cell_eta p] at hlex
          exact absurd hlex (not_lexLt_xp p.1 p.2.1 p.2.2)
        · exact hm
      have ham : m2Map g Nx Ny Nz (p.1, p.2.1, p.2.2 - 1) ≠ 0 := by
        rcases hσne _ ha with ⟨hlex, hFF⟩ | hm
        · exfalso
          rcases fFired_struct hNx hNy hNz hFF with hXY | hYZ | hZX
          · have hyo : p.2.1 % 2 = 1 := hXY.2.1
            rcases m2_ne.mp hdm with hv | he
            · have h'' : p.2.1 % 2 = 0 := (vCond_mk.mp hv).2.1
              omega
            · rcases eFired_struct hNx hNy hNz he with hX | hY | hZ
              · have h'' : (p.1 + 1) % 2 = 1 := hX.1
                omega
              · have h'' : p.2.2 % 2 = 0 := hY.2.2.1
                omega
              · have h'' : p.2.1 % 2 = 0 := hZ.2.1
                omega
          · have h' : (p.2.2 - 1) % 2 = 1 := hYZ.2.2.1
            omega
          · have h' : (p.2.2 - 1) % 2 = 1 := hZX.2.2.1
            omega
        · exact hm
      have hcm : m2Map g Nx Ny Nz (p.1 - 1, p.2.1, p.2.2) ≠ 0 := by
        rcases hσne _ hc1 with ⟨hlex, hFF⟩ | hm
        · exfalso
          rcases fFired_struct hNx hNy hNz hFF with hXY | hYZ | hZX
          · have h' : (p.1 - 1) % 2 = 1 := hXY.1
            omega
          · have hyo : p.2.1 % 2 = 1 := hYZ.2.1
            rcases m2_ne.mp hbm with hv | he
            · have h'' : p.1 % 2 = 0 := (vCond_mk.mp hv).1
              omega
            · rcases eFired_struct hNx hNy hNz he with hX | hY | hZ
              · have h'' : p.2.1 % 2 = 0 := hX.2.1
                omega
              · have h'' : p.1 % 2 = 0 := hY.1
                omega
              · have h'' : (p.2.2 + 1) % 2 = 1 := hZ.2.2.1
                omega
          · have h' : (p.1 - 1) % 2 = 1 := hZX.1
            omega
        · exact hm
      refine Or.inr (Or.inr ⟨?_, ?_, ?_, ?_⟩)
      · rw [hzm]
        exact ham
      · rw [hzp]
        exact hbm
      · rw [hxm]
        exact hcm
      · rw [hxp]
        exact hdm
  · intro hFB
    have hFF : fFired g Nx Ny Nz p := of_decide_eq_true hFB
    obtain ⟨_, h0m, hcond⟩ := hFF
    refine ⟨by rw [hσp]; exact h0m, ?_⟩
    rcases hcond with ⟨ha, hb, hc1, hd⟩ | ⟨ha, hb, hc1, hd⟩ | ⟨ha, hb, hc1, hd⟩
    · exact Or.inl ⟨hmono _ ha, hmono _ hb, ovl_one_of_base hc1, hmono _ hd⟩
    · exact Or.inr (Or.inl ⟨hmono _ ha, hmono _ hb, hmono _ hc1, hmono _ hd⟩)
    · exact Or.inr (Or.inr ⟨hmono _ ha, hmono _ hb, hmono _ hc1, hmono _ hd⟩)

theorem hmain_cube {g : Cell → ℚ} {Nx Ny Nz : ℕ}
    (hNx : Nx % 2 = 1) (hNy : Ny % 2 = 1) (hNz : Nz % 2 = 1) (p : Cell)
    (hin : inR Nx Ny Nz p) :
    ((ovl (fun q => decide (lexLt q p) && cB g Nx Ny Nz q) (m3Map g Nx Ny Nz)) p = 0 ∧
      cubeCondAt (ovl (fun q => decide (lexLt q p) && cB g Nx Ny Nz q) (m3Map g Nx Ny Nz))
        Nx Ny Nz p)
    ↔ cB g Nx Ny Nz p = true := by
  obtain ⟨hin1, hin2, hin3⟩ := hin
  set σ := ovl (fun q => decide (lexLt q p) && cB g Nx Ny Nz q) (m3Map g Nx Ny Nz) with hσdef
  have hσp : σ p = m3Map g Nx Ny Nz p := sigma_self
  have hmono : ∀ q, m3Map g Nx Ny Nz q ≠ 0 → σ q ≠ 0 :=
    fun q h => ovl_ne_iff.mpr (Or.inr h)
  have hσne : ∀ q, σ q ≠ 0 →
      (lexLt q p ∧ cFired g Nx Ny Nz q) ∨ m3Map g Nx Ny Nz q ≠ 0 := by
    intro q h
    rcases ovl_ne_iff.mp h with hC | hm
    · left
      simpa [cB] using hC
    · right
      exact hm
  have hG : Good Nx Ny Nz σ :=
    good_ovl (good_m3 g hNx hNy hNz) (fun s hCs =>
      cFired_clauses hNx hNy hNz (by
        have := (Bool.and_eq_true _ _).mp hCs
        exact of_decide_eq_true this.2))
  constructor
  · rintro ⟨h0σ, ⟨ha, hb⟩, ⟨hc1, hd⟩, ⟨he, hf2⟩⟩
    have h0m : m3Map g Nx Ny Nz p = 0 := by
      rw [← hσp]
      exact h0σ
    obtain ⟨hox, hxm, hxp, hbx1, hbx2⟩ := pairX_odd hNx hG hin1 h0σ ha hb
    obtain ⟨hoy, hym, hyp, hby1, hby2⟩ := pairY_odd hNy hG hin2 h0σ hc1 hd
    obtain ⟨hoz, hzm, hzp, hbz1, hbz2⟩ := pairZ_odd hNz hG hin3 h0σ he hf2
    rw [hxm] at ha
    rw [hxp] at hb
    rw [hym] at hc1
    rw [hyp] at hd
    rw [hzm] at he
    rw [hzp] at hf2
    have hbm : m3Map g Nx Ny Nz (p.1 + 1, p.2.1, p.2.2) ≠ 0 := by
      rcases hσne _ hb with ⟨hlex, _⟩ | hm
      · rw [← cell_eta p] at hlex
        exact absurd hlex (not_lexLt_xp p.1 p.2.1 p.2.2)
      · exact hm
    have hdm : m3Map g Nx Ny Nz (p.1, p.2.1 + 1, p.2.2) ≠ 0 := by
      rcases hσne _ hd with ⟨hlex, _⟩ | hm
      · rw [← cell_eta p] at hlex
        exact absurd hlex (not_lexLt_yp p.1 p.2.1 p.2.2)
      · exact hm
    have hfm : m3Map g Nx Ny Nz (p.1, p.2.1, p.2.2 + 1) ≠ 0 := by
      rcases hσne _ hf2 with ⟨hlex, _⟩ | hm
      · rw [← cell_eta p] at hlex
        exact absurd hlex (not_lexLt_zp p.1 p.2.1 p.2.2)
      · exact hm
    have ham : m3Map g Nx Ny Nz (p.1 - 1, p.2.1, p.2.2) ≠ 0 := by
      rcases hσne _ ha with ⟨hlex, hCF⟩ | hm
      · exfalso
        have h' : (p.1 - 1) % 2 = 1 := (cFired_struct hNx hNy hNz hCF).1
        omega
      · exact hm
    have hcm : m3Map g Nx Ny Nz (p.1, p.2.1 - 1, p.2.2) ≠ 0 := by
      rcases hσne _ hc1 with ⟨hlex, hCF⟩ | hm
      · exfalso
        have h' : (p.2.1 - 1) % 2 = 1 := (cFired_struct hNx hNy hNz hCF).2.1
        omega
      · exact hm
    have hem : m3Map g Nx Ny Nz (p.1, p.2.1, p.2.2 - 1) ≠ 0 := by
      rcases hσne _ he with ⟨hlex, hCF⟩ | hm
      · exfalso
        have h' : (p.2.2 - 1) % 2 = 1 := (cFired_struct hNx hNy hNz hCF).2.2.1
        omega
      · exact hm
    refine decide_eq_true ?_
    refine ⟨⟨hin1, hin2, hin3⟩, h0m, ⟨?_, ?_⟩, ⟨?_, ?_⟩, ⟨?_, ?_⟩⟩
    · rw [hxm]
      exact ham
    · rw [hxp]
      exact hbm
    · rw [hym]
      exact hcm
    · rw [hyp]
      exact hdm
    · rw [hzm]
      exact hem
    · rw [hzp]
      exact hfm
  · intro hCB
    have hCF : cFired g Nx Ny Nz p := of_decide_eq_true hCB
    obtain ⟨_, h0m, ⟨ha, hb⟩, ⟨hc1, hd⟩, ⟨he, hf2⟩⟩ := hCF
    exact ⟨by rw [hσp]; exact h0m,
      ⟨hmono _ ha, hmono _ hb⟩, ⟨hmono _ hc1, hmono _ hd⟩, ⟨hmono _ he, hmono _ hf2⟩⟩

/-!  ### The pass bodies in `fire`/`set` shape  -/

theorem edgeStep_eq (Nx Ny Nz : ℕ) (m : CMap) (c : Cell) :
    edgeStep Nx Ny Nz m c =
      if m c = 0 ∧ edgeCondAt m Nx Ny Nz c then setCell m c 1 else m := by
  unfold edgeStep edgeCondAt
  split_ifs <;> first | rfl | tauto

theorem faceStep_eq (Nx Ny Nz : ℕ) (m : CMap) (c : Cell) :
    faceStep Nx Ny Nz m c =
      if m c = 0 ∧ faceCondAt m Nx Ny Nz c then setCell m c 1 else m := by
  unfold faceStep faceCondAt
  split_ifs <;> first | rfl | tauto

theorem cubeStep_eq (Nx Ny Nz : ℕ) (m : CMap) (c : Cell) :
    cubeStep Nx Ny Nz m c =
      if m c = 0 ∧ cubeCondAt m Nx Ny Nz c then setCell m c 1 else m := by
  unfold cubeStep cubeCondAt
  split_ifs <;> first | rfl | tauto

theorem edgeStepJ_eq (Nx Ny Nz : ℕ) (snap m : CMap) (c : Cell) :
    edgeStepJ Nx Ny Nz snap m c =
      if snap c = 0 ∧ edgeCondAt snap Nx Ny Nz c then setCell m c 1 else m := by
  unfold edgeStepJ edgeCondAt
  split_ifs <;> first | rfl | tauto

theorem faceStepJ_eq (Nx Ny Nz : ℕ) (snap m : CMap) (c : Cell) :
    faceStepJ Nx Ny Nz snap m c =
      if snap c = 0 ∧ faceCondAt snap Nx Ny Nz c then setCell m c 1 else m := by
  unfold faceStepJ faceCondAt
  split_ifs <;> first | rfl | tauto

theorem cubeStepJ_eq (Nx Ny Nz : ℕ) (snap m : CMap) (c : Cell) :
    cubeStepJ Nx Ny Nz snap m c =
      if snap c = 0 ∧ cubeCondAt snap Nx Ny Nz c then setCell m c 1 else m := by
  unfold cubeStepJ cubeCondAt
  split_ifs <;> first | rfl | tauto

/-!  ### Each pass equals its closed form  -/

theorem vertexPass_eq (g : Cell → ℚ) (nx ny nz : ℕ) :
    (scanIdx nx ny nz).foldl (vertexStep g) (fun _ => 0)
      = m1Map g (2 * nx - 1) (2 * ny - 1) (2 * nz - 1) := by
  funext q
  rw [foldl_vertexStep]
  by_cases h : ∃ c, c ∈ scanIdx nx ny nz ∧ g c ≠ 0 ∧ q = (2 * c.1, 2 * c.2.1, 2 * c.2.2)
  · rw [if_pos h]
    rcases h with ⟨c, hc, hg, rfl⟩
    obtain ⟨h1, h2, h3⟩ := mem_scanIdx.mp hc
    refine (ovl_pos (decide_eq_true ?_)).symm
    refine ⟨?_, ?_, ?_, ⟨?_, ?_, ?_⟩, ?_⟩
    · show 2 * c.1 % 2 = 0
      omega
    · show 2 * c.2.1 % 2 = 0
      omega
    · show 2 * c.2.2 % 2 = 0
      omega
    · show 2 * c.1 < 2 * nx - 1
      omega
    · show 2 * c.2.1 < 2 * ny - 1
      omega
    · show 2 * c.2.2 < 2 * nz - 1
      omega
    · have e1 : 2 * c.1 / 2 = c.1 := by omega
      have e2 : 2 * c.2.1 / 2 = c.2.1 := by omega
      have e3 : 2 * c.2.2 / 2 = c.2.2 := by omega
      show g (2 * c.1 / 2, 2 * c.2.1 / 2, 2 * c.2.2 / 2) ≠ 0
      rw [e1, e2, e3, cell_eta]
      exact hg
  · rw [if_neg h]
    have hvB : vB g (2 * nx - 1) (2 * ny - 1) (2 * nz - 1) q = false := by
      refine decide_eq_false ?_
      intro hv
      obtain ⟨h1, h2, h3, ⟨hb1, hb2, hb3⟩, hg⟩ := hv
      refine h ⟨(q.1 / 2, q.2.1 / 2, q.2.2 / 2),
        mem_scanIdx.mpr ⟨by show q.1 / 2 < nx; omega, by show q.2.1 / 2 < ny; omega,
          by show q.2.2 / 2 < nz; omega⟩, hg, ?_⟩
      rw [← cell_eta q]
      simp only [Prod.mk.injEq]
      exact ⟨by omega, by omega, by omega⟩
    exact (@ovl_neg (vB g (2 * nx - 1) (2 * ny - 1) (2 * nz - 1)) (fun _ => 0) q hvB).symm

theorem edgePass_eq (g : Cell → ℚ) {Nx Ny Nz : ℕ}
    (hNx : Nx % 2 = 1) (hNy : Ny % 2 = 1) (hNz : Nz % 2 = 1) :
    (scanIdx Nx Ny Nz).foldl (edgeStep Nx Ny Nz) (m1Map g Nx Ny Nz)
      = m2Map g Nx Ny Nz :=
  foldl_pass_char (fun m c => m c = 0 ∧ edgeCondAt m Nx Ny Nz c) (edgeStep Nx Ny Nz)
    (edgeStep_eq Nx Ny Nz) (eB g Nx Ny Nz) Nx Ny Nz (m1Map g Nx Ny Nz)
    (fun q hq => (of_decide_eq_true hq).1)
    (fun p hp => hmain_edge hNx hNy hNz p hp)

theorem facePass_eq (g : Cell → ℚ) {Nx Ny Nz : ℕ}
    (hNx : Nx % 2 = 1) (hNy : Ny % 2 = 1) (hNz : Nz % 2 = 1) :
    (scanIdx Nx Ny Nz).foldl (faceStep Nx Ny Nz) (m2Map g Nx Ny Nz)
      = m3Map g Nx Ny Nz :=
  foldl_pass_char (fun m c => m c = 0 ∧ faceCondAt m Nx Ny Nz c) (faceStep Nx Ny Nz)
    (faceStep_eq Nx Ny Nz) (fB g Nx Ny Nz) Nx Ny Nz (m2Map g Nx Ny Nz)
    (fun q hq => (of_decide_eq_true hq).1)
    (fun p hp => hmain_face hNx hNy hNz p hp)

theorem cubePass_eq (g : Cell → ℚ) {Nx Ny Nz : ℕ}
    (hNx : Nx % 2 = 1) (hNy : Ny % 2 = 1) (hNz : Nz % 2 = 1) :
    (scanIdx Nx Ny Nz).foldl (cubeStep Nx Ny Nz) (m3Map g Nx Ny Nz)
      = m4Map g Nx Ny Nz :=
  foldl_pass_char (fun m c => m c = 0 ∧ cubeCondAt m Nx Ny Nz c) (cubeStep Nx Ny Nz)
    (cubeStep_eq Nx Ny Nz) (cB g Nx Ny Nz) Nx Ny Nz (m3Map g Nx Ny Nz)
    (fun q hq => (of_decide_eq_true hq).1)
    (fun p hp => hmain_cube hNx hNy hNz p hp)

theorem edgePassJ_eq (g : Cell → ℚ) {Nx Ny Nz : ℕ}
    (hNx : Nx % 2 = 1) (hNy : Ny % 2 = 1) (hNz : Nz % 2 = 1) :
    (scanIdx Nx Ny Nz).foldl (edgeStepJ Nx Ny Nz (m1Map g Nx Ny Nz)) (m1Map g Nx Ny Nz)
      = m2Map g Nx Ny Nz :=
  foldl_pass_char
    (fun _ c => m1Map g Nx Ny Nz c = 0 ∧ edgeCondAt (m1Map g Nx Ny Nz) Nx Ny Nz c)
    (edgeStepJ Nx Ny Nz (m1Map g Nx Ny Nz))
    (fun m c => edgeStepJ_eq Nx Ny Nz (m1Map g Nx Ny Nz) m c)
    (eB g Nx Ny Nz) Nx Ny Nz (m1Map g Nx Ny Nz)
    (fun q hq => (of_decide_eq_true hq).1)
    (fun p hp => by
      constructor
      · rintro ⟨h0, hc⟩
        exact decide_eq_true ⟨hp, h0, hc⟩
      · intro h
        obtain ⟨_, h0, hc⟩ := of_decide_eq_true h
        exact ⟨h0, hc⟩)

theorem facePassJ_eq (g : Cell → ℚ) {Nx Ny Nz : ℕ}
    (hNx : Nx % 2 = 1) (hNy : Ny % 2 = 1) (hNz : Nz % 2 = 1) :
    (scanIdx Nx Ny Nz).foldl (faceStepJ Nx Ny Nz (m2Map g Nx Ny Nz)) (m2Map g Nx Ny Nz)
      = m3Map g Nx Ny Nz :=
  foldl_pass_char
    (fun _ c => m2Map g Nx Ny Nz c = 0 ∧ faceCondAt (m2Map g Nx Ny Nz) Nx Ny Nz c)
    (faceStepJ Nx Ny Nz (m2Map g Nx Ny Nz))
    (fun m c => faceStepJ_eq Nx Ny Nz (m2Map g Nx Ny Nz) m c)
    (fB g Nx Ny Nz) Nx Ny Nz (m2Map g Nx Ny Nz)
    (fun q hq => (of_decide_eq_true hq).1)
    (fun p hp => by
      constructor
      · rintro ⟨h0, hc⟩
        exact decide_eq_true ⟨hp, h0, hc⟩
      · intro h
        obtain ⟨_, h0, hc⟩ := of_decide_eq_true h
        exact ⟨h0, hc⟩)

theorem cubePassJ_eq (g : Cell → ℚ) {Nx Ny Nz : ℕ}
    (hNx : Nx % 2 = 1) (hNy : Ny % 2 = 1) (hNz : Nz % 2 = 1) :
    (scanIdx Nx Ny Nz).foldl (cubeStepJ Nx Ny Nz (m3Map g Nx Ny Nz)) (m3Map g Nx Ny Nz)
      = m4Map g Nx Ny Nz :=
  foldl_pass_char
    (fun _ c => m3Map g Nx Ny Nz c = 0 ∧ cubeCondAt (m3Map g Nx Ny Nz) Nx Ny Nz c)
    (cubeStepJ Nx Ny Nz (m3Map g Nx Ny Nz))
    (fun m c => cubeStepJ_eq Nx Ny Nz (m3Map g Nx Ny Nz) m c)
    (cB g Nx Ny Nz) Nx Ny Nz (m3Map g Nx Ny Nz)
    (fun q hq => (of_decide_eq_true hq).1)
    (fun p hp => by
      constructor
      · rintro ⟨h0, hc⟩
        exact decide_eq_true ⟨hp, h0, hc⟩
      · intro h
        obtain ⟨_, h0, hc⟩ := of_decide_eq_true h
        exact ⟨h0, hc⟩)

/-- The in-place construction equals the closed form. -/
theorem buildCubeMap_eq (g : Cell → ℚ) (nx ny nz : ℕ)
    (hx : 1 ≤ nx) (hy : 1 ≤ ny) (hz : 1 ≤ nz) :
    buildCubeMap g nx ny nz
      = ⟨2 * nx - 1, 2 * ny - 1, 2 * nz - 1,
          m4Map g (2 * nx - 1) (2 * ny - 1) (2 * nz - 1)⟩ := by
  have hNx : (2 * nx - 1) % 2 = 1 := by omega
  have hNy : (2 * ny - 1) % 2 = 1 := by omega
  have hNz : (2 * nz - 1) % 2 = 1 := by omega
  show CubeMapResult.mk (2 * nx - 1) (2 * ny - 1) (2 * nz - 1)
      ((scanIdx (2 * nx - 1) (2 * ny - 1) (2 * nz - 1)).foldl
        (cubeStep (2 * nx - 1) (2 * ny - 1) (2 * nz - 1))
        ((scanIdx (2 * nx - 1) (2 * ny - 1) (2 * nz - 1)).foldl
          (faceStep (2 * nx - 1) (2 * ny - 1) (2 * nz - 1))
          ((scanIdx (2 * nx - 1) (2 * ny - 1) (2 * nz - 1)).foldl
            (edgeStep (2 * nx - 1) (2 * ny - 1) (2 * nz - 1))
            ((scanIdx nx ny nz).foldl (vertexStep g) (fun _ => 0)))))
    = _
  rw [vertexPass_eq g nx ny nz, edgePass_eq g hNx hNy hNz, facePass_eq g hNx hNy hNz,
    cubePass_eq g hNx hNy hNz]

/-- The snapshot construction equals the same closed form. -/
theorem buildCubeMapJacobi_eq (g : Cell → ℚ) (nx ny nz : ℕ)
    (hx : 1 ≤ nx) (hy : 1 ≤ ny) (hz : 1 ≤ nz) :
    buildCubeMapJacobi g nx ny nz
      = ⟨2 * nx - 1, 2 * ny - 1, 2 * nz - 1,
          m4Map g (2 * nx - 1) (2 * ny - 1) (2 * nz - 1)⟩ := by
  have hNx : (2 * nx - 1) % 2 = 1 := by omega
  have hNy : (2 * ny - 1) % 2 = 1 := by omega
  have hNz : (2 * nz - 1) % 2 = 1 := by omega
  show CubeMapResult.mk (2 * nx - 1) (2 * ny - 1) (2 * nz - 1)
      ((scanIdx (2 * nx - 1) (2 * ny - 1) (2 * nz - 1)).foldl
        (cubeStepJ (2 * nx - 1) (2 * ny - 1) (2 * nz - 1)
          ((scanIdx (2 * nx - 1) (2 * ny - 1) (2 * nz - 1)).foldl
            (faceStepJ (2 * nx - 1) (2 * ny - 1) (2 * nz - 1)
              ((scanIdx (2 * nx - 1) (2 * ny - 1) (2 * nz - 1)).foldl
                (edgeStepJ (2 * nx - 1) (2 * ny - 1) (2 * nz - 1)
                  ((scanIdx nx ny nz).foldl (vertexStep g) (fun _ => 0)))
                ((scanIdx nx ny nz).foldl (vertexStep g) (fun _ => 0))))
            ((scanIdx (2 * nx - 1) (2 * ny - 1) (2 * nz - 1)).foldl
              (edgeStepJ (2 * nx - 1) (2 * ny - 1) (2 * nz - 1)
                ((scanIdx nx ny nz).foldl (vertexStep g) (fun _ => 0)))
              ((scanIdx nx ny nz).foldl (vertexStep g) (fun _ => 0)))))
        ((scanIdx (2 * nx - 1) (2 * ny - 1) (2 * nz - 1)).foldl
          (faceStepJ (2 * nx - 1) (2 * ny - 1) (2 * nz - 1)
            ((scanIdx (2 * nx - 1) (2 * ny - 1) (2 * nz - 1)).foldl
              (edgeStepJ (2 * nx - 1) (2 * ny - 1) (2 * nz - 1)
                ((scanIdx nx ny nz).foldl (vertexStep g) (fun _ => 0)))
              ((scanIdx nx ny nz).foldl (vertexStep g) (fun _ => 0))))
          ((scanIdx (2 * nx - 1) (2 * ny - 1) (2 * nz - 1)).foldl
            (edgeStepJ (2 * nx - 1) (2 * ny - 1) (2 * nz - 1)
              ((scanIdx nx ny nz).foldl (vertexStep g) (fun _ => 0)))
            ((scanIdx nx ny nz).foldl (vertexStep g) (fun _ => 0)))))
    = _
  rw [vertexPass_eq g nx ny nz, edgePassJ_eq g hNx hNy hNz, facePassJ_eq g hNx hNy hNz,
    cubePassJ_eq g hNx hNy hNz]

/-!  ### Top-level characterisations  -/

theorem CubeMapShape_ok (nx ny nz : ℕ) (v : List ℕ → ℚ)
    (hx : nx ≠ 0) (hy : ny ≠ 0) (hz : nz ≠ 0) :
    CubeMapShape [nx, ny, nz] v
      = .ok ⟨2 * nx - 1, 2 * ny - 1, 2 * nz - 1,
          m4Map (fun c => v [c.1, c.2.1, c.2.2]) (2 * nx - 1) (2 * ny - 1) (2 * nz - 1)⟩ := by
  show (if nx = 0 ∨ ny = 0 ∨ nz = 0 then Except.error ShapeError.negativeDimension
      else Except.ok (buildCubeMap (fun c => v [c.1, c.2.1, c.2.2]) nx ny nz)) = _
  rw [if_neg (by simp [hx, hy, hz]),
    buildCubeMap_eq _ nx ny nz (by omega) (by omega) (by omega)]

theorem CubeMapShape_rank :
    ∀ (s : List ℕ) (v : List ℕ → ℚ), s.length ≠ 3 →
      CubeMapShape s v = .error (.rankMismatch s.length)
  | [], _, _ => rfl
  | [_], _, _ => rfl
  | [_, _], _, _ => rfl
  | [_, _, _], _, h => absurd rfl h
  | _ :: _ :: _ :: _ :: _, _, _ => rfl

theorem CubeMapShape_zero (nx ny nz : ℕ) (v : List ℕ → ℚ)
    (h : nx = 0 ∨ ny = 0 ∨ nz = 0) :
    CubeMapShape [nx, ny, nz] v = .error .negativeDimension := by
  show (if nx = 0 ∨ ny = 0 ∨ nz = 0 then Except.error ShapeError.negativeDimension
      else Except.ok (buildCubeMap (fun c => v [c.1, c.2.1, c.2.2]) nx ny nz)) = _
  rw [if_pos h]

theorem CubeMapShapeJacobi_rank :
    ∀ (s : List ℕ) (v : List ℕ → ℚ), s.length ≠ 3 →
      CubeMapShapeJacobi s v = .error (.rankMismatch s.length)
  | [], _, _ => rfl
  | [_], _, _ => rfl
  | [_, _], _, _ => rfl
  | [_, _, _], _, h => absurd rfl h
  | _ :: _ :: _ :: _ :: _, _, _ => rfl

theorem EulerShape_rank :
    ∀ (s : List ℕ) (v : List ℕ → ℚ), s.length ≠ 3 →
      EulerShape s v = .error (.rankMismatch s.length)
  | [], _, _ => rfl
  | [_], _, _ => rfl
  | [_, _], _, _ => rfl
  | [_, _, _], _, h => absurd rfl h
  | _ :: _ :: _ :: _ :: _, _, _ => rfl

theorem CubeMap_ok (arr : NDArr) (nx ny nz : ℕ) (hsh : arr.shape = [nx, ny, nz])
    (hx : nx ≠ 0) (hy : ny ≠ 0) (hz : nz ≠ 0) :
    CubeMap arr
      = .ok ⟨2 * nx - 1, 2 * ny - 1, 2 * nz - 1,
          m4Map (fun c => arr.val [c.1, c.2.1, c.2.2])
            (2 * nx - 1) (2 * ny - 1) (2 * nz - 1)⟩ := by
  unfold CubeMap
  rw [hsh]
  exact CubeMapShape_ok nx ny nz arr.val hx hy hz

theorem CubeMapShape_eq_jacobi :
    ∀ (s : List ℕ) (v : List ℕ → ℚ), CubeMapShape s v = CubeMapShapeJacobi s v
  | [], _ => rfl
  | [_], _ => rfl
  | [_, _], _ => rfl
  | [nx, ny, nz], v => by
    show (if nx = 0 ∨ ny = 0 ∨ nz = 0 then Except.error ShapeError.negativeDimension
        else Except.ok (buildCubeMap (fun c => v [c.1, c.2.1, c.2.2]) nx ny nz))
      = (if nx = 0 ∨ ny = 0 ∨ nz = 0 then Except.error ShapeError.negativeDimension
        else Except.ok (buildCubeMapJacobi (fun c => v [c.1, c.2.1, c.2.2]) nx ny nz))
    by_cases h : nx = 0 ∨ ny = 0 ∨ nz = 0
    · rw [if_pos h, if_pos h]
    · have hx : nx ≠ 0 := fun e => h (Or.inl e)
      have hy : ny ≠ 0 := fun e => h (Or.inr (Or.inl e))
      have hz : nz ≠ 0 := fun e => h (Or.inr (Or.inr e))
      rw [if_neg h, if_neg h,
        buildCubeMap_eq _ nx ny nz (by omega) (by omega) (by omega),
        buildCubeMapJacobi_eq _ nx ny nz (by omega) (by omega) (by omega)]
  | _ :: _ :: _ :: _ :: _, _ => rfl

/-!  ### The Euler accumulation as a signed sum  -/

/-- The contribution of one cell to the alternating sum. -/
def eulerTerm (v : List ℕ → ℚ) (c : Cell) : ℤ :=
  if v [c.1, c.2.1, c.2.2] = 1 then
    (if (c.1 + c.2.1 + c.2.2) % 2 = 0 then 1 else -1)
  else 0

/-- The signed count stated by the spec: `+1` for every cell of value
exactly `1` with even coordinate sum, `-1` for every such cell with odd
coordinate sum.  (This definition follows the spec's wording; the code's
sequential accumulation is proved equal to it.) -/
def eulerSpecSum (v : List ℕ → ℚ) (nx ny nz : ℕ) : ℤ :=
  ∑ x ∈ Finset.range nx, ∑ y ∈ Finset.range ny, ∑ z ∈ Finset.range nz,
    (if v [x, y, z] = 1 then (if (x + y + z) % 2 = 0 then (1 : ℤ) else -1) else 0)

theorem eulerStep_eq (v : List ℕ → ℚ) (chi : ℤ) (c : Cell) :
    eulerStep v chi c = chi + eulerTerm v c := by
  unfold eulerStep eulerTerm
  split_ifs <;> omega

theorem foldl_eulerStep (v : List ℕ → ℚ) :
    ∀ (L : List Cell) (a : ℤ),
      L.foldl (eulerStep v) a = a + (L.map (eulerTerm v)).sum := by
  intro L
  induction L with
  | nil =>
    intro a
    simp
  | cons c L ih =>
    intro a
    rw [List.foldl_cons, ih, eulerStep_eq, List.map_cons, List.sum_cons]
    omega

theorem sum_map_range (n : ℕ) (f : ℕ → ℤ) :
    ((List.range n).map f).sum = ∑ i ∈ Finset.range n, f i := by
  induction n with
  | zero => simp
  | succ n ih =>
    rw [List.range_succ, List.map_append, List.sum_append, Finset.sum_range_succ, ih]
    simp

theorem sum_map_flatMap {α β : Type} (L : List α) (h : α → List β) (f : β → ℤ) :
    ((L.flatMap h).map f).sum = (L.map (fun a => ((h a).map f).sum)).sum := by
  induction L with
  | nil => simp
  | cons a L ih =>
    rw [List.flatMap_cons, List.map_append, List.sum_append, List.map_cons,
      List.sum_cons, ih]

theorem scan_sum (nx ny nz : ℕ) (f : Cell → ℤ) :
    ((scanIdx nx ny nz).map f).sum
      = ∑ x ∈ Finset.range nx, ∑ y ∈ Finset.range ny, ∑ z ∈ Finset.range nz,
          f (x, y, z) := by
  unfold scanIdx
  rw [sum_map_flatMap]
  have hone : ∀ i j : ℕ,
      (((List.range nz).map fun k => ((i, j, k) : Cell)).map f).sum
        = ∑ z ∈ Finset.range nz, f (i, j, z) := by
    intro i j
    rw [List.map_map]
    exact sum_map_range nz _
  have htwo : ∀ i : ℕ,
      (((List.range ny).flatMap fun j =>
          (List.range nz).map fun k => ((i, j, k) : Cell)).map f).sum
        = ∑ y ∈ Finset.range ny, ∑ z ∈ Finset.range nz, f (i, y, z) := by
    intro i
    rw [sum_map_flatMap]
    simp only [hone]
    exact sum_map_range ny _
  simp only [htwo]
  exact sum_map_range nx _

theorem EulerShape_eq (nx ny nz : ℕ) (v : List ℕ → ℚ) :
    EulerShape [nx, ny, nz] v = .ok (eulerSpecSum v nx ny nz) := by
  show Except.ok ((scanIdx nx ny nz).foldl (eulerStep v) 0) = _
  rw [foldl_eulerStep, zero_add, scan_sum]
  rfl

/-!  ### All-zero inputs  -/

theorem m1Map_zero {g : Cell → ℚ} {Nx Ny Nz : ℕ} (hg : ∀ c, g c = 0) (q : Cell) :
    m1Map g Nx Ny Nz q = 0 := by
  rcases m1_01 g Nx Ny Nz q with h | h
  · exact h
  · exfalso
    have hne : m1Map g Nx Ny Nz q ≠ 0 := by
      rw [h]
      exact one_ne_zero
    exact (m1_ne.mp hne).2.2.2.2 (hg _)

theorem m4Map_zero {g : Cell → ℚ} {Nx Ny Nz : ℕ} (hg : ∀ c, g c = 0) (q : Cell) :
    m4Map g Nx Ny Nz q = 0 := by
  have hv : ∀ c, ¬ vCond g Nx Ny Nz c := fun c hc => hc.2.2.2.2 (hg _)
  have hm1 : ∀ c, m1Map g Nx Ny Nz c = 0 := m1Map_zero hg
  have hE : ∀ c, ¬ eFired g Nx Ny Nz c := by
    rintro c ⟨_, _, hcond⟩
    rcases hcond with ⟨h1, _⟩ | ⟨h1, _⟩ | ⟨h1, _⟩ <;> exact h1 (hm1 _)
  have hm2 : ∀ c, m2Map g Nx Ny Nz c = 0 := by
    intro c
    rcases m2_01 g Nx Ny Nz c with h | h
    · exact h
    · exfalso
      have hne : m2Map g Nx Ny Nz c ≠ 0 := by
        rw [h]
        exact one_ne_zero
      rcases m2_ne.mp hne with h' | h'
      · exact hv _ h'
      · exact hE _ h'
  have hF : ∀ c, ¬ fFired g Nx Ny Nz c := by
    rintro c ⟨_, _, hcond⟩
    rcases hcond with ⟨h1, _⟩ | ⟨h1, _⟩ | ⟨h1, _⟩ <;> exact h1 (hm2 _)
  have hm3 : ∀ c, m3Map g Nx Ny Nz c = 0 := by
    intro c
    rcases m3_01 g Nx Ny Nz c with h | h
    · exact h
    · exfalso
      have hne : m3Map g Nx Ny Nz c ≠ 0 := by
        rw [h]
        exact one_ne_zero
      rcases m3_ne.mp hne with h' | h' | h'
      · exact hv _ h'
      · exact hE _ h'
      · exact hF _ h'
  have hC : ∀ c, ¬ cFired g Nx Ny Nz c := by
    rintro c ⟨_, _, ⟨h1, _⟩, _, _⟩
    exact h1 (hm3 _)
  rcases m4_01 g Nx Ny Nz q with h | h
  · exact h
  · exfalso
    have hne : m4Map g Nx Ny Nz q ≠ 0 := by
      rw [h]
      exact one_ne_zero
    rcases m4_ne.mp hne with h' | h' | h' | h'
    · exact hv _ h'
    · exact hE _ h'
    · exact hF _ h'
    · exact hC _ h'

theorem foldl_euler_const (v : List ℕ → ℚ) :
    ∀ (L : List Cell), (∀ c ∈ L, v [c.1, c.2.1, c.2.2] ≠ 1) →
      ∀ a : ℤ, L.foldl (eulerStep v) a = a := by
  intro L
  induction L with
  | nil =>
    intro _ a
    rfl
  | cons c L ih =>
    intro h a
    rw [List.foldl_cons]
    have hstep : eulerStep v a c = a := by
      unfold eulerStep
      rw [if_neg (h c (List.mem_cons_self c L))]
    rw [hstep]
    exact ih (fun c' hc' => h c' (List.mem_cons_of_mem c hc')) a

/-!  ### Reading off the final state  -/

theorem m4_one_of_vCond {g : Cell → ℚ} {Nx Ny Nz : ℕ} {q : Cell}
    (h : vCond g Nx Ny Nz q) : m4Map g Nx Ny Nz q = 1 := by
  have hne := m3_to_m4 (m2_to_m3 (m1_to_m2 (m1_ne.mpr h)))
  rcases m4_01 g Nx Ny Nz q with h' | h'
  · exact absurd h' hne
  · exact h'

/-- No later pass ever touches an all-even cell: the final value there is
the vertex-pass value. -/
theorem m4_even {g : Cell → ℚ} {Nx Ny Nz : ℕ}
    (hNx : Nx % 2 = 1) (hNy : Ny % 2 = 1) (hNz : Nz % 2 = 1) {c : Cell}
    (h1 : c.1 % 2 = 0) (h2 : c.2.1 % 2 = 0) (h3 : c.2.2 % 2 = 0) :
    m4Map g Nx Ny Nz c = m1Map g Nx Ny Nz c := by
  rcases m4_01 g Nx Ny Nz c with h | h
  · rcases m1_01 g Nx Ny Nz c with h' | h'
    · rw [h, h']
    · exfalso
      have hne : m1Map g Nx Ny Nz c ≠ 0 := by
        rw [h']
        exact one_ne_zero
      exact m3_to_m4 (m2_to_m3 (m1_to_m2 hne)) h
  · have hne : m4Map g Nx Ny Nz c ≠ 0 := by
      rw [h]
      exact one_ne_zero
    rcases m4_ne.mp hne with hv | he | hf | hcc
    · rw [h]
      rcases m1_01 g Nx Ny Nz c with h' | h'
      · exact absurd h' (m1_ne.mpr hv)
      · rw [h']
    · exfalso
      rcases eFired_struct hNx hNy hNz he with hX | hY | hZ
      · have := hX.1
        omega
      · have := hY.2.1
        omega
      · have := hZ.2.2.1
        omega
    · exfalso
      rcases fFired_struct hNx hNy hNz hf with hXY | hYZ | hZX
      · have := hXY.1
        omega
      · have := hYZ.2.1
        omega
      · have := hZX.1
        omega
    · exfalso
      have := (cFired_struct hNx hNy hNz hcc).1
      omega

theorem m4_edgeX {g : Cell → ℚ} {Nx Ny Nz : ℕ}
    (hNx : Nx % 2 = 1) (hNy : Ny % 2 = 1) (hNz : Nz % 2 = 1) {c : Cell}
    (hodd : c.1 % 2 = 1) (h2 : c.2.1 % 2 = 0) (h3 : c.2.2 % 2 = 0)
    (hs : m4Map g Nx Ny Nz c = 1) :
    m4Map g Nx Ny Nz (xm Nx c) = 1 ∧ m4Map g Nx Ny Nz (xp Nx c) = 1 := by
  have hne : m4Map g Nx Ny Nz c ≠ 0 := by
    rw [hs]
    exact one_ne_zero
  rcases m4_ne.mp hne with hv | he | hf | hcc
  · exact absurd hv.1 (by omega)
  · rcases eFired_struct hNx hNy hNz he with hX | hY | hZ
    · obtain ⟨_, _, _, hb1, hb2, hvm, hvp⟩ := hX
      have hlt : c.1 < Nx := by omega
      have hxm_e : xm Nx c = (c.1 - 1, c.2.1, c.2.2) := by
        unfold xm
        rw [nbm_eq hlt, if_neg (by omega)]
      have hxp_e : xp Nx c = (c.1 + 1, c.2.1, c.2.2) := by
        unfold xp
        rw [nbp_eq hlt, if_neg (by omega)]
      rw [hxm_e, hxp_e]
      exact ⟨m4_one_of_vCond hvm, m4_one_of_vCond hvp⟩
    · exact absurd hY.1 (by omega)
    · exact absurd hZ.1 (by omega)
  · rcases fFired_struct hNx hNy hNz hf with hXY | hYZ | hZX
    · exact absurd hXY.2.1 (by omega)
    · exact absurd hYZ.2.1 (by omega)
    · exact absurd hZX.2.2.1 (by omega)
  · exact absurd (cFired_struct hNx hNy hNz hcc).2.1 (by omega)

theorem m4_edgeY {g : Cell → ℚ} {Nx Ny Nz : ℕ}
    (hNx : Nx % 2 = 1) (hNy : Ny % 2 = 1) (hNz : Nz % 2 = 1) {c : Cell}
    (h1 : c.1 % 2 = 0) (hodd : c.2.1 % 2 = 1) (h3 : c.2.2 % 2 = 0)
    (hs : m4Map g Nx Ny Nz c = 1) :
    m4Map g Nx Ny Nz (ym Ny c) = 1 ∧ m4Map g Nx Ny Nz (yp Ny c) = 1 := by
  have hne : m4Map g Nx Ny Nz c ≠ 0 := by
    rw [hs]
    exact one_ne_zero
  rcases m4_ne.mp hne with hv | he | hf | hcc
  · exact absurd hv.2.1 (by omega)
  · rcases eFired_struct hNx hNy hNz he with hX | hY | hZ
    · exact absurd hX.2.1 (by omega)
    · obtain ⟨_, _, _, hb1, hb2, hvm, hvp⟩ := hY
      have hlt : c.2.1 < Ny := by omega
      have hym_e : ym Ny c = (c.1, c.2.1 - 1, c.2.2) := by
        unfold ym
        rw [nbm_eq hlt, if_neg (by omega)]
      have hyp_e : yp Ny c = (c.1, c.2.1 + 1, c.2.2) := by
        unfold yp
        rw [nbp_eq hlt, if_neg (by omega)]
      rw [hym_e, hyp_e]
      exact ⟨m4_one_of_vCond hvm, m4_one_of_vCond hvp⟩
    · exact absurd hZ.2.1 (by omega)
  · rcases fFired_struct hNx hNy hNz hf with hXY | hYZ | hZX
    · exact absurd hXY.1 (by omega)
    · exact absurd hYZ.2.2.1 (by omega)
    · exact absurd hZX.1 (by omega)
  · exact absurd (cFired_struct hNx hNy hNz hcc).1 (by omega)

theorem m4_edgeZ {g : Cell → ℚ} {Nx Ny Nz : ℕ}
    (hNx : Nx % 2 = 1) (hNy : Ny % 2 = 1) (hNz : Nz % 2 = 1) {c : Cell}
    (h1 : c.1 % 2 = 0) (h2 : c.2.1 % 2 = 0) (hodd : c.2.2 % 2 = 1)
    (hs : m4Map g Nx Ny Nz c = 1) :
    m4Map g Nx Ny Nz (zm Nz c) = 1 ∧ m4Map g Nx Ny Nz (zp Nz c) = 1 := by
  have hne : m4Map g Nx Ny Nz c ≠ 0 := by
    rw [hs]
    exact one_ne_zero
  rcases m4_ne.mp hne with hv | he | hf | hcc
  · exact absurd hv.2.2.1 (by omega)
  · rcases eFired_struct hNx hNy hNz he with hX | hY | hZ
    · exact absurd hX.2.2.1 (by omega)
    · exact absurd hY.2.2.1 (by omega)
    · obtain ⟨_, _, _, hb1, hb2, hvm, hvp⟩ := hZ
      have hlt : c.2.2 < Nz := by omega
      have hzm_e : zm Nz c = (c.1, c.2.1, c.2.2 - 1) := by
        unfold zm
        rw [nbm_eq hlt, if_neg (by omega)]
      have hzp_e : zp Nz c = (c.1, c.2.1, c.2.2 + 1) := by
        unfold zp
        rw [nbp_eq hlt, if_neg (by omega)]
      rw [hzm_e, hzp_e]
      exact ⟨m4_one_of_vCond hvm, m4_one_of_vCond hvp⟩
  · rcases fFired_struct hNx hNy hNz hf with hXY | hYZ | hZX
    · exact absurd hXY.1 (by omega)
    · exact absurd hYZ.2.1 (by omega)
    · exact absurd hZX.1 (by omega)
  · exact absurd (cFired_struct hNx hNy hNz hcc).1 (by omega)

/-!  ### The claims  -/

/-- The grid of shape `(2,1,1)` with both voxels equal to `1`. -/
def arr211 : NDArr := ⟨[2, 1, 1], fun _ => 1⟩

/-- The `CubeMap` output on `arr211`. -/
def cm211 : CubeMapResult := ⟨3, 1, 1, m4Map (fun _ => 1) 3 1 1⟩

/-- Claim C1: closure invariant of the built complex.  For every 3D
occupancy grid, in the array returned by `CubeMap` every cell of value 1
with exactly one odd coordinate (an edge cell) has both of its two
neighbours one step away along that odd axis, wrapped modulo the axis
extent, also equal to 1. -/
theorem claim_c1 (arr : NDArr) (nx ny nz : ℕ) (hsh : arr.shape = [nx, ny, nz])
    (hx : nx ≠ 0) (hy : ny ≠ 0) (hz : nz ≠ 0)
    (r : CubeMapResult) (hr : CubeMap arr = .ok r)
    (i j k : ℕ) (hmap : r.map (i, j, k) = 1) :
    (i % 2 = 1 → j % 2 = 0 → k % 2 = 0 →
      r.map (nbm r.Nx i, j, k) = 1 ∧ r.map (nbp r.Nx i, j, k) = 1) ∧
    (i % 2 = 0 → j % 2 = 1 → k % 2 = 0 →
      r.map (i, nbm r.Ny j, k) = 1 ∧ r.map (i, nbp r.Ny j, k) = 1) ∧
    (i % 2 = 0 → j % 2 = 0 → k % 2 = 1 →
      r.map (i, j, nbm r.Nz k) = 1 ∧ r.map (i, j, nbp r.Nz k) = 1) := by
  rw [CubeMap_ok arr nx ny nz hsh hx hy hz] at hr
  injection hr with h
  subst h
  have hNx : (2 * nx - 1) % 2 = 1 := by omega
  have hNy : (2 * ny - 1) % 2 = 1 := by omega
  have hNz : (2 * nz - 1) % 2 = 1 := by omega
  have hm : m4Map (fun c => arr.val [c.1, c.2.1, c.2.2])
      (2 * nx - 1) (2 * ny - 1) (2 * nz - 1) (i, j, k) = 1 := hmap
  refine ⟨?_, ?_, ?_⟩
  · intro h1 h2 h3
    exact m4_edgeX hNx hNy hNz h1 h2 h3 hm
  · intro h1 h2 h3
    exact m4_edgeY hNx hNy hNz h1 h2 h3 hm
  · intro h1 h2 h3
    exact m4_edgeZ hNx hNy hNz h1 h2 h3 hm

theorem claim_c1_witness :
    cm211.map (nbm cm211.Nx 1, 0, 0) = 1 ∧ cm211.map (nbp cm211.Nx 1, 0, 0) = 1 :=
  (claim_c1 arr211 2 1 1 rfl (by decide) (by decide) (by decide) cm211
      (CubeMap_ok arr211 2 1 1 rfl (by decide) (by decide) (by decide))
      1 0 0 rfl).1 rfl rfl rfl

/-- Claim C2: `EulerCharacteristic_seq` on every rank-3 array equals the
signed count that starts from 0 and, for every cell of value exactly 1,
adds `+1` when the coordinate sum is even and `-1` when it is odd; and
the result is a signed integer that can be zero, positive, or
negative. -/
theorem claim_c2 :
    (∀ (A : NDArr) (nx ny nz : ℕ), A.shape = [nx, ny, nz] →
      EulerCharacteristic_seq A = .ok (eulerSpecSum A.val nx ny nz)) ∧
    (∃ A : NDArr, EulerCharacteristic_seq A = .ok 0) ∧
    (∃ A : NDArr, EulerCharacteristic_seq A = .ok 1) ∧
    (∃ A : NDArr, EulerCharacteristic_seq A = .ok (-1)) := by
  refine ⟨?_, ⟨⟨[1, 1, 1], fun _ => 0⟩, rfl⟩, ⟨⟨[1, 1, 1], fun _ => 1⟩, rfl⟩,
    ⟨⟨[1, 1, 2], fun l => if l = [0, 0, 1] then 1 else 0⟩, rfl⟩⟩
  intro A nx ny nz hsh
  unfold EulerCharacteristic_seq
  rw [hsh]
  exact EulerShape_eq nx ny nz A.val

theorem claim_c2_witness :
    EulerCharacteristic_seq ⟨[1, 1, 1], fun _ => 1⟩
      = .ok (eulerSpecSum (fun _ => 1) 1 1 1) :=
  claim_c2.1 ⟨[1, 1, 1], fun _ => 1⟩ 1 1 1 rfl

/-- Claim C3: vertex placement is preserved by the later passes: on a
binary occupancy grid, every all-even cell of the output equals the
corresponding input voxel. -/
theorem claim_c3 (arr : NDArr) (nx ny nz : ℕ) (hsh : arr.shape = [nx, ny, nz])
    (hx : nx ≠ 0) (hy : ny ≠ 0) (hz : nz ≠ 0)
    (hbin : ∀ x y z, x < nx → y < ny → z < nz →
      arr.val [x, y, z] = 0 ∨ arr.val [x, y, z] = 1)
    (r : CubeMapResult) (hr : CubeMap arr = .ok r)
    (i j k : ℕ) (hi : i < nx) (hj : j < ny) (hk : k < nz) :
    r.map (2 * i, 2 * j, 2 * k) = arr.val [i, j, k] := by
  rw [CubeMap_ok arr nx ny nz hsh hx hy hz] at hr
  injection hr with h
  subst h
  have hNx : (2 * nx - 1) % 2 = 1 := by omega
  have hNy : (2 * ny - 1) % 2 = 1 := by omega
  have hNz : (2 * nz - 1) % 2 = 1 := by omega
  show m4Map (fun c => arr.val [c.1, c.2.1, c.2.2])
      (2 * nx - 1) (2 * ny - 1) (2 * nz - 1) (2 * i, 2 * j, 2 * k) = arr.val [i, j, k]
  rw [m4_even hNx hNy hNz (show 2 * i % 2 = 0 by omega)
    (show 2 * j % 2 = 0 by omega) (show 2 * k % 2 = 0 by omega)]
  by_cases hv : vCond (fun c => arr.val [c.1, c.2.1, c.2.2])
      (2 * nx - 1) (2 * ny - 1) (2 * nz - 1) (2 * i, 2 * j, 2 * k)
  · have hone : m1Map (fun c => arr.val [c.1, c.2.1, c.2.2])
        (2 * nx - 1) (2 * ny - 1) (2 * nz - 1) (2 * i, 2 * j, 2 * k) = 1 := by
      unfold m1Map vB
      exact ovl_pos (decide_eq_true hv)
    rw [hone]
    have hgv : arr.val [2 * i / 2, 2 * j / 2, 2 * k / 2] ≠ 0 := hv.2.2.2.2
    rw [show 2 * i / 2 = i from by omega, show 2 * j / 2 = j from by omega,
      show 2 * k / 2 = k from by omega] at hgv
    rcases hbin i j k hi hj hk with h0 | h1
    · exact absurd h0 hgv
    · rw [h1]
  · have hzero : m1Map (fun c => arr.val [c.1, c.2.1, c.2.2])
        (2 * nx - 1) (2 * ny - 1) (2 * nz - 1) (2 * i, 2 * j, 2 * k) = 0 := by
      unfold m1Map vB
      exact ovl_neg (decide_eq_false hv)
    rw [hzero]
    rcases hbin i j k hi hj hk with h0 | h1
    · rw [h0]
    · exfalso
      apply hv
      refine vCond_mk.mpr ⟨by omega, by omega, by omega,
        ⟨by omega, by omega, by omega⟩, ?_⟩
      show arr.val [2 * i / 2, 2 * j / 2, 2 * k / 2] ≠ 0
      rw [show 2 * i / 2 = i from by omega, show 2 * j / 2 = j from by omega,
        show 2 * k / 2 = k from by omega, h1]
      exact one_ne_zero

theorem claim_c3_witness :
    cm211.map (2 * 1, 2 * 0, 2 * 0) = arr211.val [1, 0, 0] :=
  claim_c3 arr211 2 1 1 rfl (by decide) (by decide) (by decide)
    (fun x y z _ _ _ => Or.inr rfl) cm211
    (CubeMap_ok arr211 2 1 1 rfl (by decide) (by decide) (by decide))
    1 0 0 (by decide) (by decide) (by decide)

/-- Claim C4: every cell of the edge, face and cube passes is updated as
if from the state at the start of that pass: the sequential in-place
scan (`CubeMap`) returns the same result as the snapshot variant
(`CubeMapJacobi`) on every input array. -/
theorem claim_c4 : ∀ arr : NDArr, CubeMap arr = CubeMapJacobi arr :=
  fun arr => CubeMapShape_eq_jacobi arr.shape arr.val

/-- Claim C5 (amended): an input of rank other than 3 makes both
`CubeMap` and `EulerCharacteristic_seq` fail with a shape error, and a
rank-3 input with a zero-length axis makes `CubeMap` fail with a shape
error; `EulerCharacteristic_seq`, however, accepts a rank-3 array with a
zero-length axis (see the counterexample). -/
theorem claim_c5 :
    (∀ A : NDArr, A.shape.length ≠ 3 →
      CubeMap A = .error (.rankMismatch A.shape.length) ∧
      EulerCharacteristic_seq A = .error (.rankMismatch A.shape.length)) ∧
    (∀ (A : NDArr) (nx ny nz : ℕ), A.shape = [nx, ny, nz] →
      nx * ny * nz = 0 → CubeMap A = .error .negativeDimension) := by
  constructor
  · intro A h
    exact ⟨CubeMapShape_rank A.shape A.val h, EulerShape_rank A.shape A.val h⟩
  · intro A nx ny nz hsh h0
    unfold CubeMap
    rw [hsh]
    refine CubeMapShape_zero nx ny nz A.val ?_
    rcases Nat.mul_eq_zero.mp h0 with h | h
    · rcases Nat.mul_eq_zero.mp h with h | h
      · exact Or.inl h
      · exact Or.inr (Or.inl h)
    · exact Or.inr (Or.inr h)

theorem claim_c5_witness :
    (CubeMap ⟨[2, 2], fun _ => 1⟩ = .error (.rankMismatch 2) ∧
      EulerCharacteristic_seq ⟨[2, 2], fun _ => 1⟩ = .error (.rankMismatch 2)) ∧
    CubeMap ⟨[0, 1, 1], fun _ => 1⟩ = .error .negativeDimension :=
  ⟨claim_c5.1 ⟨[2, 2], fun _ => 1⟩ (by decide),
    claim_c5.2 ⟨[0, 1, 1], fun _ => 1⟩ 0 1 1 rfl (by decide)⟩

/-- Claim C5, counterexample to the claim as stated: on the rank-3 array
of shape `[0, 1, 1]` — a zero-length first axis — the loops of
`EulerCharacteristic_seq` run zero times and the function returns the
answer `0` instead of failing with a shape error. -/
theorem claim_c5_counterexample :
    EulerCharacteristic_seq ⟨[0, 1, 1], fun _ => 0⟩ = .ok 0 ∧
      ∀ e : ShapeError, EulerCharacteristic_seq ⟨[0, 1, 1], fun _ => 0⟩ ≠ .error e := by
  refine ⟨rfl, fun e h => ?_⟩
  rw [show EulerCharacteristic_seq ⟨[0, 1, 1], fun _ => 0⟩ = .ok 0 from rfl] at h
  exact Except.noConfusion h

/-- Claim C6: on a rank-3 input of extents `nx, ny, nz ≥ 1`, `CubeMap`
succeeds and returns an array of shape
`(2*nx - 1, 2*ny - 1, 2*nz - 1)`. -/
theorem claim_c6 (arr : NDArr) (nx ny nz : ℕ) (hsh : arr.shape = [nx, ny, nz])
    (hx : 1 ≤ nx) (hy : 1 ≤ ny) (hz : 1 ≤ nz) :
    ∃ r : CubeMapResult, CubeMap arr = .ok r ∧
      r.Nx = 2 * nx - 1 ∧ r.Ny = 2 * ny - 1 ∧ r.Nz = 2 * nz - 1 ∧
      r.toNDArr.shape = [2 * nx - 1, 2 * ny - 1, 2 * nz - 1] :=
  ⟨_, CubeMap_ok arr nx ny nz hsh (by omega) (by omega) (by omega),
    rfl, rfl, rfl, rfl⟩

theorem claim_c6_witness :
    ∃ r : CubeMapResult, CubeMap arr211 = .ok r ∧
      r.Nx = 2 * 2 - 1 ∧ r.Ny = 2 * 1 - 1 ∧ r.Nz = 2 * 1 - 1 ∧
      r.toNDArr.shape = [2 * 2 - 1, 2 * 1 - 1, 2 * 1 - 1] :=
  claim_c6 arr211 2 1 1 rfl (by decide) (by decide) (by decide)

/-- Claim C7: on the grid of shape `(2,1,1)` with both voxels `1`,
`CubeMap` returns the shape-`(3,1,1)` array `[1, 1, 1]`
(vertex, edge, vertex), and `EulerCharacteristic_seq` of that array
returns `1`. -/
theorem claim_c7 :
    ∃ r : CubeMapResult, CubeMap arr211 = .ok r ∧
      r.Nx = 3 ∧ r.Ny = 1 ∧ r.Nz = 1 ∧
      r.map (0, 0, 0) = 1 ∧ r.map (1, 0, 0) = 1 ∧ r.map (2, 0, 0) = 1 ∧
      EulerCharacteristic_seq r.toNDArr = .ok 1 :=
  ⟨_, CubeMap_ok arr211 2 1 1 rfl (by decide) (by decide) (by decide),
    rfl, rfl, rfl, rfl, rfl, rfl, rfl⟩

/-- Claim C8: on an all-zero grid of any extents `nx, ny, nz ≥ 1`,
`CubeMap` returns an all-zero array, and `EulerCharacteristic_seq`
returns `0` both on that array and on the all-zero grid itself. -/
theorem claim_c8 (nx ny nz : ℕ) (hx : 1 ≤ nx) (hy : 1 ≤ ny) (hz : 1 ≤ nz) :
    ∃ r : CubeMapResult,
      CubeMap ⟨[nx, ny, nz], fun _ => 0⟩ = .ok r ∧
      (∀ c : Cell, r.map c = 0) ∧
      EulerCharacteristic_seq r.toNDArr = .ok 0 ∧
      EulerCharacteristic_seq ⟨[nx, ny, nz], fun _ => 0⟩ = .ok 0 := by
  refine ⟨_, CubeMap_ok ⟨[nx, ny, nz], fun _ => 0⟩ nx ny nz rfl
    (by omega) (by omega) (by omega), ?_, ?_, ?_⟩
  · intro c
    exact m4Map_zero (fun _ => rfl) c
  · show Except.ok (((scanIdx (2 * nx - 1) (2 * ny - 1) (2 * nz - 1))).foldl
      (eulerStep (CubeMapResult.toNDArr _).val) 0) = Except.ok 0
    congr 1
    refine foldl_euler_const _ _ (fun c _ => ?_) 0
    show m4Map (fun c => (0 : ℚ)) (2 * nx - 1) (2 * ny - 1) (2 * nz - 1)
      (c.1, c.2.1, c.2.2) ≠ 1
    rw [m4Map_zero (fun _ => rfl)]
    exact fun h => one_ne_zero h.symm
  · show Except.ok ((scanIdx nx ny nz).foldl (eulerStep fun _ => 0) 0) = Except.ok 0
    congr 1
    refine foldl_euler_const _ _ (fun c _ => ?_) 0
    exact fun h => one_ne_zero h.symm

theorem claim_c8_witness :
    ∃ r : CubeMapResult,
      CubeMap ⟨[1, 1, 1], fun _ => 0⟩ = .ok r ∧
      (∀ c : Cell, r.map c = 0) ∧
      EulerCharacteristic_seq r.toNDArr = .ok 0 ∧
      EulerCharacteristic_seq ⟨[1, 1, 1], fun _ => 0⟩ = .ok 0 :=
  claim_c8 1 1 1 (by decide) (by decide) (by decide)

/-- Claim C9: binary output domain — whatever numeric values the input
holds, every cell of the array returned by `CubeMap` is exactly `0` or
exactly `1`. -/
theorem claim_c9 (arr : NDArr) (nx ny nz : ℕ) (hsh : arr.shape = [nx, ny, nz])
    (hx : nx ≠ 0) (hy : ny ≠ 0) (hz : nz ≠ 0)
    (r : CubeMapResult) (hr : CubeMap arr = .ok r) (c : Cell) :
    r.map c = 0 ∨ r.map c = 1 := by
  rw [CubeMap_ok arr nx ny nz hsh hx hy hz] at hr
  injection hr with h
  subst h
  exact m4_01 _ _ _ _ c

theorem claim_c9_witness : cm211.map (0, 0, 0) = 0 ∨ cm211.map (0, 0, 0) = 1 :=
  claim_c9 arr211 2 1 1 rfl (by decide) (by decide) (by decide) cm211
    (CubeMap_ok arr211 2 1 1 rfl (by decide) (by decide) (by decide)) (0, 0, 0)

/-- Claim C10: the Euler sum filters on strict equality with `1`: a loop
step leaves the accumulator unchanged on any cell whose value is not
exactly `1`, and on a rank-3 array none of whose cells equals `1` the
function returns `0`. -/
theorem claim_c10 :
    (∀ (v : List ℕ → ℚ) (chi : ℤ) (c : Cell),
      v [c.1, c.2.1, c.2.2] ≠ 1 → eulerStep v chi c = chi) ∧
    (∀ (A : NDArr) (nx ny nz : ℕ), A.shape = [nx, ny, nz] →
      (∀ x y z, x < nx → y < ny → z < nz → A.val [x, y, z] ≠ 1) →
      EulerCharacteristic_seq A = .ok 0) := by
  constructor
  · intro v chi c hne
    unfold eulerStep
    rw [if_neg hne]
  · intro A nx ny nz hsh hno
    unfold EulerCharacteristic_seq
    rw [hsh]
    show Except.ok ((scanIdx nx ny nz).foldl (eulerStep A.val) 0) = Except.ok 0
    congr 1
    refine foldl_euler_const A.val _ (fun c hc => ?_) 0
    obtain ⟨h1, h2, h3⟩ := mem_scanIdx.mp hc
    exact hno c.1 c.2.1 c.2.2 h1 h2 h3

theorem claim_c10_witness :
    eulerStep (fun _ => 2) 5 (0, 0, 0) = 5 ∧
      EulerCharacteristic_seq ⟨[1, 1, 1], fun _ => 2⟩ = .ok 0 :=
  ⟨claim_c10.1 (fun _ => 2) 5 (0, 0, 0) (by norm_num),
    claim_c10.2 ⟨[1, 1, 1], fun _ => 2⟩ 1 1 1 rfl (fun x y z _ _ _ => by norm_num)⟩

end ViteBetti
